import Mathlib

/-!
# Verification of the Loop Distribution core (LoopDistribute.cpp)

A shallow embedding of the loop-distribution transformation implemented in
`src/src/lib/Transforms/Scalar/LoopDistribute.cpp`, together with theorems
settling the frozen claims C1..C10 about it.

Conventions used throughout:
* Instructions and basic blocks are identified by `Nat` ids.
* The C++ `unsigned` counter `NumUnsafeDependencesStartOrEnd` is modelled as a
  `Nat` reduced modulo `W = 2^32`; the `int` accumulator
  `NumUnsafeDependencesActive` is modelled by its 32-bit pattern (a `Nat`
  below `W`) whose signed reading is `uintToInt`.
* External collaborators (LoopAccessAnalysis classification, the dominator
  tree and CFG primitives) appear as explicitly-passed data or oracles, as
  described in the spec's OUT OF SCOPE list.
-/

/-- 2^32, the modulus of the 32-bit counters used by the pass. -/
def W : Nat := 4294967296

/-- Signed reading of a 32-bit pattern (two's complement), as produced when the
C++ code adds the `unsigned` per-access delta into the `int` accumulator. -/
def uintToInt (x : Nat) : Int :=
  if x < 2147483648 then (x : Int) else (x : Int) - (W : Int)

/-- A dependence between two memory accesses, as supplied by the external
dependence analysis: program-order indices of source and destination and the
classification flag read via `Dependence::isPossiblyBackward()`. -/
structure Dependence where
  source : Nat
  destination : Nat
  possiblyBackward : Bool
deriving DecidableEq, Repr

/-- Add `c` (mod `W`) to position `j` of a position-indexed 32-bit counter
family; models `++`/`--` on an `unsigned` array slot. -/
def bump (f : Nat → Nat) (j c : Nat) : Nat → Nat :=
  Function.update f j ((f j + c) % W)

/-- The per-access deltas computed by the `MemoryInstructionDependences`
constructor: for each possibly-backward dependence, `++` at its source index
and `--` (i.e. `+ (W-1)` mod `W`) at its destination index. -/
def midDeltas (deps : List Dependence) : Nat → Nat :=
  deps.foldl
    (fun f dp =>
      if dp.possiblyBackward then bump (bump f dp.source 1) dp.destination (W - 1) else f)
    (fun _ => 0)

/-- The `Accesses` entries of `MemoryInstructionDependences`: each memory
instruction (in program order) paired with its stored
`NumUnsafeDependencesStartOrEnd` delta. -/
def memoryInstructionDependences (instrs : List Nat) (deps : List Dependence) :
    List (Nat × Nat) :=
  (List.range instrs.length).map (fun i => (instrs.getD i 0, midDeltas deps i))

/-- Sum of `f 0 + ... + f (m-1)`. -/
def sumTo (f : Nat → Nat) : Nat → Nat
  | 0 => 0
  | m + 1 => sumTo f m + f m

/-- The 32-bit pattern held by `NumUnsafeDependencesActive` after the
partition-building loop has consumed accesses `0 .. m-1`. -/
def runningActive (f : Nat → Nat) : Nat → Nat
  | 0 => 0
  | m + 1 => (runningActive f m + f m) % W

/-- Number of possibly-backward dependences whose span covers the boundary
just before access `m`, i.e. those with `source < m ≤ destination`. -/
def activeCount (deps : List Dependence) (m : Nat) : Nat :=
  (deps.filter
    (fun dp => dp.possiblyBackward && decide (dp.source < m) && decide (m ≤ dp.destination))).length

/-- Number of possibly-backward dependences starting at access `i`. -/
def startsCnt (deps : List Dependence) (i : Nat) : Nat :=
  (deps.filter (fun dp => dp.possiblyBackward && decide (dp.source = i))).length

/-- Number of possibly-backward dependences ending at access `i`. -/
def endsCnt (deps : List Dependence) (i : Nat) : Nat :=
  (deps.filter (fun dp => dp.possiblyBackward && decide (dp.destination = i))).length

lemma W_pos : 0 < W := by decide

lemma sumTo_bump (f : Nat → Nat) (j c : Nat) (m : Nat) :
    sumTo (bump f j c) m ≡ sumTo f m + (if j < m then c else 0) [MOD W] := by
  induction m with
  | zero => simp [sumTo, Nat.ModEq.refl]
  | succ m ih =>
    by_cases hj : j = m
    · subst hj
      have hv : bump f j c j = (f j + c) % W := by simp [bump]
      have hnlt : ¬ j < j := Nat.lt_irrefl j
      have hlt : j < j + 1 := Nat.lt_succ_self j
      simp only [sumTo, hv, hnlt, if_neg, Nat.add_zero, hlt, if_pos] at ih ⊢
      calc sumTo (bump f j c) j + (f j + c) % W
          ≡ sumTo f j + (f j + c) % W [MOD W] := Nat.ModEq.add_right _ ih
        _ ≡ sumTo f j + (f j + c) [MOD W] := Nat.ModEq.add_left _ (Nat.mod_modEq _ _)
        _ = sumTo f j + f j + c := by ring
    · have hv : bump f j c m = f m := Function.update_noteq (Ne.symm hj) _ f
      by_cases hjm : j < m
      · have h1 : j < m + 1 := Nat.lt_succ_of_lt hjm
        simp only [sumTo, hv, hjm, if_pos, h1] at ih ⊢
        calc sumTo (bump f j c) m + f m
            ≡ sumTo f m + c + f m [MOD W] := Nat.ModEq.add_right _ ih
          _ = sumTo f m + f m + c := by ring
      · have h1 : ¬ j < m + 1 := by omega
        simp only [sumTo, hv, hjm, if_neg, h1, Nat.add_zero] at ih ⊢
        exact Nat.ModEq.add_right _ ih

lemma activeCount_cons (dp : Dependence) (deps : List Dependence) (m : Nat) :
    activeCount (dp :: deps) m =
      (if dp.possiblyBackward = true ∧ dp.source < m ∧ m ≤ dp.destination then 1 else 0)
        + activeCount deps m := by
  simp only [activeCount, List.filter_cons]
  by_cases hb : (dp.possiblyBackward && decide (dp.source < m) && decide (m ≤ dp.destination)) = true
  · have h' : dp.possiblyBackward = true ∧ dp.source < m ∧ m ≤ dp.destination := by
      simp only [Bool.and_eq_true, decide_eq_true_eq] at hb
      exact ⟨hb.1.1, hb.1.2, hb.2⟩
    simp [hb, h', Nat.add_comm]
  · have h' : ¬ (dp.possiblyBackward = true ∧ dp.source < m ∧ m ≤ dp.destination) := by
      intro hc
      apply hb
      simp [hc.1, hc.2.1, hc.2.2]
    simp [hb, h']

/-- Core accounting lemma: the prefix sum of the stored deltas is congruent
(mod `W`) to the prefix sum before processing plus the number of dependences
covering the boundary `m`. -/
lemma sumTo_midDeltas_fold (deps : List Dependence) (f0 : Nat → Nat) (m : Nat)
    (hsd : ∀ dp ∈ deps, dp.possiblyBackward = true → dp.source < dp.destination) :
    sumTo
      (deps.foldl
        (fun f dp =>
          if dp.possiblyBackward then bump (bump f dp.source 1) dp.destination (W - 1) else f)
        f0) m
      ≡ sumTo f0 m + activeCount deps m [MOD W] := by
  induction deps generalizing f0 with
  | nil => simp [activeCount, Nat.ModEq.refl]
  | cons dp rest ih =>
    simp only [List.foldl_cons]
    have hrest : ∀ dq ∈ rest, dq.possiblyBackward = true → dq.source < dq.destination :=
      fun dq h => hsd dq (List.mem_cons_of_mem _ h)
    by_cases hpb : dp.possiblyBackward
    · have hsd' : dp.source < dp.destination := hsd dp (List.mem_cons_self _ _) hpb
      simp only [hpb, if_true]
      have h1 := ih (bump (bump f0 dp.source 1) dp.destination (W - 1)) hrest
      have h2 : sumTo (bump (bump f0 dp.source 1) dp.destination (W - 1)) m
          ≡ sumTo (bump f0 dp.source 1) m + (if dp.destination < m then W - 1 else 0) [MOD W] :=
        sumTo_bump _ _ _ _
      have h3 : sumTo (bump f0 dp.source 1) m
          ≡ sumTo f0 m + (if dp.source < m then 1 else 0) [MOD W] :=
        sumTo_bump _ _ _ _
      have hstep : sumTo (bump (bump f0 dp.source 1) dp.destination (W - 1)) m
          ≡ sumTo f0 m
            + (if dp.possiblyBackward = true ∧ dp.source < m ∧ m ≤ dp.destination then 1 else 0)
            [MOD W] := by
        rcases Nat.lt_or_ge dp.source m with hs | hs
        · rcases Nat.lt_or_ge dp.destination m with hd | hd
          · -- both before m: +1 and +(W-1) cancel mod W
            have hnot : ¬ (dp.possiblyBackward = true ∧ dp.source < m ∧ m ≤ dp.destination) := by
              rintro ⟨-, -, hmd⟩
              exact Nat.lt_irrefl _ (Nat.lt_of_lt_of_le hd hmd)
            rw [if_neg hnot, Nat.add_zero]
            have e2 : sumTo (bump (bump f0 dp.source 1) dp.destination (W - 1)) m
                ≡ sumTo (bump f0 dp.source 1) m + (W - 1) [MOD W] := by
              have := h2
              rw [if_pos hd] at this
              exact this
            have e3 : sumTo (bump f0 dp.source 1) m ≡ sumTo f0 m + 1 [MOD W] := by
              have := h3
              rw [if_pos hs] at this
              exact this
            have hWeq : sumTo f0 m + 1 + (W - 1) = sumTo f0 m + W := by
              have hW1 : (1 : Nat) ≤ W := by decide
              omega
            have hW0 : W ≡ 0 [MOD W] := (Nat.modEq_zero_iff_dvd).mpr dvd_rfl
            calc sumTo (bump (bump f0 dp.source 1) dp.destination (W - 1)) m
                ≡ sumTo (bump f0 dp.source 1) m + (W - 1) [MOD W] := e2
              _ ≡ sumTo f0 m + 1 + (W - 1) [MOD W] := Nat.ModEq.add_right _ e3
              _ = sumTo f0 m + W := hWeq
              _ ≡ sumTo f0 m + 0 [MOD W] := Nat.ModEq.add_left _ hW0
              _ = sumTo f0 m := by ring
          · -- source before m, destination at or after m: net +1
            have hyes : dp.possiblyBackward = true ∧ dp.source < m ∧ m ≤ dp.destination :=
              ⟨hpb, hs, hd⟩
            have hndm : ¬ dp.destination < m := Nat.not_lt_of_ge hd
            rw [if_pos hyes]
            have e2 : sumTo (bump (bump f0 dp.source 1) dp.destination (W - 1)) m
                ≡ sumTo (bump f0 dp.source 1) m [MOD W] := by
              have := h2
              rw [if_neg hndm, Nat.add_zero] at this
              exact this
            have e3 : sumTo (bump f0 dp.source 1) m ≡ sumTo f0 m + 1 [MOD W] := by
              have := h3
              rw [if_pos hs] at this
              exact this
            exact e2.trans e3
        · -- source at or after m, hence destination after m: net 0
          have hdge : m ≤ dp.destination := Nat.le_of_lt (Nat.lt_of_le_of_lt hs hsd')
          have hndm : ¬ dp.destination < m := Nat.not_lt_of_ge hdge
          have hns : ¬ dp.source < m := Nat.not_lt_of_ge hs
          have hnot : ¬ (dp.possiblyBackward = true ∧ dp.source < m ∧ m ≤ dp.destination) := by
            rintro ⟨-, hsm, -⟩
            exact hns hsm
          rw [if_neg hnot, Nat.add_zero]
          have e2 : sumTo (bump (bump f0 dp.source 1) dp.destination (W - 1)) m
              ≡ sumTo (bump f0 dp.source 1) m [MOD W] := by
            have := h2
            rw [if_neg hndm, Nat.add_zero] at this
            exact this
          have e3 : sumTo (bump f0 dp.source 1) m ≡ sumTo f0 m [MOD W] := by
            have := h3
            rw [if_neg hns, Nat.add_zero] at this
            exact this
          exact e2.trans e3
      calc sumTo (rest.foldl _ (bump (bump f0 dp.source 1) dp.destination (W - 1))) m
          ≡ sumTo (bump (bump f0 dp.source 1) dp.destination (W - 1)) m + activeCount rest m
            [MOD W] := h1
        _ ≡ sumTo f0 m
              + (if dp.possiblyBackward = true ∧ dp.source < m ∧ m ≤ dp.destination then 1 else 0)
              + activeCount rest m [MOD W] := Nat.ModEq.add_right _ hstep
        _ = sumTo f0 m + activeCount (dp :: rest) m := by
            rw [activeCount_cons]
            ring
    · have hb : dp.possiblyBackward = false := Bool.eq_false_iff.mpr hpb
      simp only [hb, Bool.false_eq_true, if_false]
      have := ih f0 hrest
      have hcnt : activeCount (dp :: rest) m = activeCount rest m := by
        rw [activeCount_cons]; simp [hb]
      rw [hcnt]
      exact this

lemma sumTo_zero (m : Nat) : sumTo (fun _ => 0) m = 0 := by
  induction m with
  | zero => rfl
  | succ m ih => simp [sumTo, ih]

lemma sumTo_midDeltas (deps : List Dependence) (m : Nat)
    (hsd : ∀ dp ∈ deps, dp.possiblyBackward = true → dp.source < dp.destination) :
    sumTo (midDeltas deps) m ≡ activeCount deps m [MOD W] := by
  have h := sumTo_midDeltas_fold deps (fun _ => 0) m hsd
  simpa [midDeltas, sumTo_zero] using h

lemma runningActive_eq_sumTo_mod (f : Nat → Nat) (m : Nat) :
    runningActive f m = sumTo f m % W := by
  induction m with
  | zero => simp [runningActive, sumTo]
  | succ m ih => simp [runningActive, sumTo, ih, Nat.add_mod, Nat.mod_mod_of_dvd]

lemma activeCount_le_length (deps : List Dependence) (m : Nat) :
    activeCount deps m ≤ deps.length :=
  List.length_filter_le _ _

lemma runningActive_eq_activeCount (deps : List Dependence) (m : Nat)
    (hsd : ∀ dp ∈ deps, dp.possiblyBackward = true → dp.source < dp.destination)
    (hlen : deps.length < 2147483648) :
    runningActive (midDeltas deps) m = activeCount deps m := by
  have h1 := runningActive_eq_sumTo_mod (midDeltas deps) m
  have h2 := sumTo_midDeltas deps m hsd
  have h3 : sumTo (midDeltas deps) m % W = activeCount deps m % W := h2
  have h4 : activeCount deps m < W := by
    have := activeCount_le_length deps m
    have hW : (2147483648 : Nat) < W := by decide
    omega
  rw [h1, h3, Nat.mod_eq_of_lt h4]

/-- C6: for the per-access deltas computed by `MemoryInstructionDependences`
(for a list of memory accesses and a list of dependences, counting only
possibly-backward ones, each with source index strictly less than destination
index and both in range), the prefix sum of `NumUnsafeDependencesStartOrEnd`
over accesses `0..i` (as accumulated in the 32-bit machine arithmetic of the
pass and read as a signed value) equals the number of possibly-backward
dependences `(s, d)` with `s ≤ i < d`; in particular this running sum is
never negative.  The counter width forces the (always satisfied in practice)
side condition that the dependence list is shorter than `2^31`. -/
theorem c6_running_sum_counts_covering_dependences
    (instrs : List Nat) (deps : List Dependence)
    (hsd : ∀ dp ∈ deps, dp.possiblyBackward = true → dp.source < dp.destination)
    (_hrange : ∀ dp ∈ deps, dp.possiblyBackward = true → dp.destination < instrs.length)
    (hlen : deps.length < 2147483648) :
    ∀ i < instrs.length,
      uintToInt (runningActive (midDeltas deps) (i + 1)) = (activeCount deps (i + 1) : Int) ∧
      0 ≤ uintToInt (runningActive (midDeltas deps) (i + 1)) := by
  intro i _
  have h := runningActive_eq_activeCount deps (i + 1) hsd hlen
  have hc : activeCount deps (i + 1) < 2147483648 :=
    lt_of_le_of_lt (activeCount_le_length _ _) hlen
  refine ⟨?_, ?_⟩
  · rw [h, uintToInt, if_pos hc]
  · rw [h, uintToInt, if_pos hc]
    exact Int.ofNat_nonneg _

/-- Concrete instantiation of `c6_running_sum_counts_covering_dependences`:
three accesses with one backward dependence spanning accesses 0..2. -/
theorem c6_witness :
    uintToInt (runningActive (midDeltas [Dependence.mk 0 2 true]) 2)
        = (activeCount [Dependence.mk 0 2 true] 2 : Int) ∧
      0 ≤ uintToInt (runningActive (midDeltas [Dependence.mk 0 2 true]) 2) :=
  c6_running_sum_counts_covering_dependences [5, 6, 7] [Dependence.mk 0 2 true]
    (by decide) (by decide) (by decide) 1 (by decide)

/-! ## Partitions (`InstPartition`, `InstPartitionContainer`)

A partition holds a set of instruction ids and the `DepCycle` flag.  The C++
objects are identified by their addresses (the container stores pointers and
`mergeToAvoidDuplicatedLoads` compares them); the `pid` field models this
object identity. -/

/-- The partition of instructions of the loop (`InstPartition`). -/
structure InstPartition where
  pid : Nat
  set : List Nat
  depCycle : Bool
deriving DecidableEq, Repr

instance : Inhabited InstPartition := ⟨⟨0, [], false⟩⟩

/-- `InstPartition::add`: insert into the instruction set (a `SmallPtrSet`,
so inserting an existing element is a no-op). -/
def InstPartition.add (P : InstPartition) (i : Nat) : InstPartition :=
  if P.set.contains i then P else { P with set := P.set ++ [i] }

/-- `InstPartition::moveTo`: move the contents of the first partition into the
second.  The first becomes empty, the second receives the set union and the
disjunction of the dependence-cycle flags. -/
def InstPartition.moveTo (P Q : InstPartition) : InstPartition × InstPartition :=
  ({ P with set := [] },
   { Q with set := Q.set ++ P.set.filter (fun x => !Q.set.contains x),
            depCycle := Q.depCycle || P.depCycle })

/-- Apply a function to the last element of a list (models mutating
`PartitionContainer.back()`). -/
def updateLast (f : α → α) : List α → List α
  | [] => []
  | [a] => [f a]
  | a :: b :: rest => a :: updateLast f (b :: rest)

/-- `InstPartitionContainer::addToCyclicPartition`: if the last partition is
absent or non-cyclic, open a new cyclic partition seeded with `inst`;
otherwise add `inst` to the last partition.  Fresh partitions get the next
free object id (partitions are only created before any partition is ever
removed, so the current length is fresh). -/
def addToCyclicPartition (parts : List InstPartition) (inst : Nat) : List InstPartition :=
  match parts.getLast? with
  | none => parts ++ [⟨parts.length, [inst], true⟩]
  | some back =>
    if back.depCycle then updateLast (fun P => P.add inst) parts
    else parts ++ [⟨parts.length, [inst], true⟩]

/-- `InstPartitionContainer::addToNewNonCyclicPartition`: open a brand-new
single-instruction non-cyclic partition. -/
def addToNewNonCyclicPartition (parts : List InstPartition) (inst : Nat) : List InstPartition :=
  parts ++ [⟨parts.length, [inst], false⟩]

/-- The partition-building loop of `LoopDistribute::processLoop`: walk the
`MemoryInstructionDependences` entries in program order keeping the 32-bit
pattern of `NumUnsafeDependencesActive`; route each access to the current
cyclic partition when the accumulator is nonzero or the access's own stored
delta is positive (as an `unsigned`, i.e. nonzero), otherwise to a new
non-cyclic partition. -/
def buildSeedPartitions (entries : List (Nat × Nat)) : List InstPartition :=
  (entries.foldl
    (fun (st : List InstPartition × Nat) e =>
      let parts := if st.2 ≠ 0 ∨ e.2 ≠ 0
        then addToCyclicPartition st.1 e.1
        else addToNewNonCyclicPartition st.1 e.1
      (parts, (st.2 + e.2) % W))
    ([], 0)).1

/-- Modelled from the spec (§4.2), for comparison with `buildSeedPartitions`:
append the access to the current cyclic partition iff the count of
possibly-backward dependences active before the access is nonzero or the
access itself starts a new unsafe dependence; otherwise open a new
single-instruction acyclic partition. -/
def specPartitionBuilder (instrs : List Nat) (deps : List Dependence) : List InstPartition :=
  ((List.range instrs.length).foldl
    (fun (parts : List InstPartition) i =>
      if activeCount deps i ≠ 0 ∨ startsCnt deps i ≠ 0
      then addToCyclicPartition parts (instrs.getD i 0)
      else addToNewNonCyclicPartition parts (instrs.getD i 0))
    [])

/-! ## Partition merging -/

/-- Inner loop of `mergeAdjacentPartitionsIf`: starting from `first`, keep
merging the following partitions while they satisfy the predicate; return the
grown first partition and the unconsumed remainder. -/
def mergeRun (pred : InstPartition → Bool) (first : InstPartition) :
    List InstPartition → InstPartition × List InstPartition
  | [] => (first, [])
  | P :: rest =>
    if pred P then mergeRun pred (P.moveTo first).2 rest
    else (first, P :: rest)

lemma mergeRun_rest_length (pred : InstPartition → Bool) (first : InstPartition)
    (l : List InstPartition) : (mergeRun pred first l).2.length ≤ l.length := by
  induction l generalizing first with
  | nil => simp [mergeRun]
  | cons P rest ih =>
    simp only [mergeRun]
    by_cases h : pred P
    · simp only [h, if_pos]
      exact le_trans (ih _) (Nat.le_succ _)
    · simp [h]

/-- Fuelled outer loop of `mergeAdjacentPartitionsIf` (the fuel is an upper
bound on the list length, so it never runs out). -/
def mergeAdjacentAux (pred : InstPartition → Bool) : Nat → List InstPartition → List InstPartition
  | 0, l => l
  | _ + 1, [] => []
  | fuel + 1, P :: rest =>
    if pred P then
      (mergeRun pred P rest).1 :: mergeAdjacentAux pred fuel (mergeRun pred P rest).2
    else P :: mergeAdjacentAux pred fuel rest

/-- `InstPartitionContainer::mergeAdjacentPartitionsIf`: merge every maximal
run of adjacent predicate-satisfying partitions into the first partition of
the run. -/
def mergeAdjacentPartitionsIf (pred : InstPartition → Bool)
    (l : List InstPartition) : List InstPartition :=
  mergeAdjacentAux pred l.length l

/-- `InstPartitionContainer::mergeAdjacentNonCyclic`. -/
def mergeAdjacentNonCyclic (parts : List InstPartition) : List InstPartition :=
  mergeAdjacentPartitionsIf (fun P => !P.depCycle) parts

/-- The predicate used by `InstPartitionContainer::mergeNonIfConvertible`:
cyclic partitions always satisfy it; a non-cyclic partition satisfies it iff
it contains a store and all its stores are in blocks needing predication
(`LoopAccessInfo::blockNeedsPredication` is the external oracle
`needsPredication`). -/
def nonIfConvertiblePred (isStore needsPredication : Nat → Bool) (P : InstPartition) : Bool :=
  P.depCycle ||
    (P.set.any isStore && P.set.all (fun i => !isStore i || needsPredication i))

/-- `InstPartitionContainer::mergeNonIfConvertible`. -/
def mergeNonIfConvertible (isStore needsPredication : Nat → Bool)
    (parts : List InstPartition) : List InstPartition :=
  mergeAdjacentPartitionsIf (nonIfConvertiblePred isStore needsPredication) parts

/-- `InstPartitionContainer::mergeBeforePopulating`: adjacent-non-cyclic merge
followed (unless the `DistributeNonIfConvertible` flag is set) by the
non-if-convertible merge. -/
def mergeBeforePopulating (distributeNonIfConvertible : Bool)
    (isStore needsPredication : Nat → Bool) (parts : List InstPartition) :
    List InstPartition :=
  let a := mergeAdjacentNonCyclic parts
  if distributeNonIfConvertible then a else mergeNonIfConvertible isStore needsPredication a

/-! ## C3: the partition-building loop matches the spec's wording -/

lemma bump_apply (f : Nat → Nat) (j c i : Nat) :
    bump f j c i = if i = j then (f j + c) % W else f i := by
  by_cases h : i = j
  · subst h; simp [bump]
  · rw [if_neg h]
    exact Function.update_noteq h _ f

lemma midDeltas_fold_lt (deps : List Dependence) (f0 : Nat → Nat)
    (h0 : ∀ i, f0 i < W) :
    ∀ i, (deps.foldl
      (fun f dp =>
        if dp.possiblyBackward then bump (bump f dp.source 1) dp.destination (W - 1) else f)
      f0) i < W := by
  induction deps generalizing f0 with
  | nil => exact h0
  | cons dp rest ih =>
    simp only [List.foldl_cons]
    by_cases hpb : dp.possiblyBackward
    · simp only [hpb, if_true]
      apply ih
      intro i
      rw [bump_apply]
      by_cases h1 : i = dp.destination
      · simp [h1, Nat.mod_lt _ W_pos]
      · rw [if_neg h1, bump_apply]
        by_cases h2 : i = dp.source
        · simp [h2, Nat.mod_lt _ W_pos]
        · rw [if_neg h2]; exact h0 i
    · have hb : dp.possiblyBackward = false := Bool.eq_false_iff.mpr hpb
      simp only [hb, Bool.false_eq_true, if_false]
      exact ih f0 h0

lemma startsCnt_cons (dp : Dependence) (deps : List Dependence) (i : Nat) :
    startsCnt (dp :: deps) i =
      (if dp.possiblyBackward = true ∧ dp.source = i then 1 else 0) + startsCnt deps i := by
  simp only [startsCnt, List.filter_cons]
  by_cases hb : (dp.possiblyBackward && decide (dp.source = i)) = true
  · have h' : dp.possiblyBackward = true ∧ dp.source = i := by
      simp only [Bool.and_eq_true, decide_eq_true_eq] at hb
      exact hb
    simp [hb, h', Nat.add_comm]
  · have h' : ¬ (dp.possiblyBackward = true ∧ dp.source = i) := by
      intro hc; apply hb; simp [hc.1, hc.2]
    simp [hb, h']

lemma endsCnt_cons (dp : Dependence) (deps : List Dependence) (i : Nat) :
    endsCnt (dp :: deps) i =
      (if dp.possiblyBackward = true ∧ dp.destination = i then 1 else 0) + endsCnt deps i := by
  simp only [endsCnt, List.filter_cons]
  by_cases hb : (dp.possiblyBackward && decide (dp.destination = i)) = true
  · have h' : dp.possiblyBackward = true ∧ dp.destination = i := by
      simp only [Bool.and_eq_true, decide_eq_true_eq] at hb
      exact hb
    simp [hb, h', Nat.add_comm]
  · have h' : ¬ (dp.possiblyBackward = true ∧ dp.destination = i) := by
      intro hc; apply hb; simp [hc.1, hc.2]
    simp [hb, h']


lemma midDeltas_fold_modeq (deps : List Dependence) (i : Nat)
    (hsd : ∀ dp ∈ deps, dp.possiblyBackward = true → dp.source < dp.destination) :
    ∀ f0 : Nat → Nat, (deps.foldl
      (fun f dp =>
        if dp.possiblyBackward then bump (bump f dp.source 1) dp.destination (W - 1) else f)
      f0) i
      ≡ f0 i + startsCnt deps i + (W - 1) * endsCnt deps i [MOD W] := by
  induction deps with
  | nil =>
    intro f0
    simp only [List.foldl_nil, startsCnt, endsCnt, List.filter_nil, List.length_nil,
      Nat.mul_zero, Nat.add_zero]
    exact Nat.ModEq.refl _
  | cons dp rest ih =>
    intro f0
    have hrest : ∀ dq ∈ rest, dq.possiblyBackward = true → dq.source < dq.destination :=
      fun dq h => hsd dq (List.mem_cons_of_mem _ h)
    simp only [List.foldl_cons]
    by_cases hpb : dp.possiblyBackward
    · have hne : dp.source ≠ dp.destination :=
        Nat.ne_of_lt (hsd dp (List.mem_cons_self _ _) hpb)
      simp only [hpb, if_true]
      have hinit : bump (bump f0 dp.source 1) dp.destination (W - 1) i
          ≡ f0 i + (if dp.source = i then 1 else 0)
            + (W - 1) * (if dp.destination = i then 1 else 0) [MOD W] := by
        rw [bump_apply]
        by_cases hdi : i = dp.destination
        · have hds : ¬ dp.destination = dp.source := fun h => hne h.symm
          rw [if_pos hdi, bump_apply, if_neg hds]
          have hsi : ¬ dp.source = i := by rw [hdi]; exact hne
          rw [if_neg hsi, if_pos hdi.symm, hdi]
          calc (f0 dp.destination + (W - 1)) % W
              ≡ f0 dp.destination + (W - 1) [MOD W] := Nat.mod_modEq _ _
            _ = f0 dp.destination + 0 + (W - 1) * 1 := by ring
        · rw [if_neg hdi, bump_apply]
          by_cases hsi : i = dp.source
          · rw [if_pos hsi, if_pos hsi.symm, if_neg (fun h => hdi h.symm), hsi]
            calc (f0 dp.source + 1) % W
                ≡ f0 dp.source + 1 [MOD W] := Nat.mod_modEq _ _
              _ = f0 dp.source + 1 + (W - 1) * 0 := by ring
          · rw [if_neg hsi, if_neg (fun h => hsi h.symm), if_neg (fun h => hdi h.symm)]
            have he : f0 i = f0 i + 0 + (W - 1) * 0 := by ring
            rw [← he]
      calc (rest.foldl
            (fun f dq =>
              if dq.possiblyBackward then bump (bump f dq.source 1) dq.destination (W - 1) else f)
            (bump (bump f0 dp.source 1) dp.destination (W - 1))) i
          ≡ bump (bump f0 dp.source 1) dp.destination (W - 1) i
              + startsCnt rest i + (W - 1) * endsCnt rest i [MOD W] :=
            ih hrest _
        _ ≡ (f0 i + (if dp.source = i then 1 else 0)
              + (W - 1) * (if dp.destination = i then 1 else 0))
              + startsCnt rest i + (W - 1) * endsCnt rest i [MOD W] :=
            Nat.ModEq.add_right _ (Nat.ModEq.add_right _ hinit)
        _ = f0 i + ((if dp.source = i then 1 else 0) + startsCnt rest i)
              + (W - 1) * ((if dp.destination = i then 1 else 0) + endsCnt rest i) := by ring
        _ = f0 i + startsCnt (dp :: rest) i + (W - 1) * endsCnt (dp :: rest) i := by
            rw [startsCnt_cons, endsCnt_cons]
            simp [hpb]
    · have hb : dp.possiblyBackward = false := Bool.eq_false_iff.mpr hpb
      simp only [hb, Bool.false_eq_true, if_false]
      have hcnt1 : startsCnt (dp :: rest) i = startsCnt rest i := by
        rw [startsCnt_cons]; simp [hb]
      have hcnt2 : endsCnt (dp :: rest) i = endsCnt rest i := by
        rw [endsCnt_cons]; simp [hb]
      rw [hcnt1, hcnt2]
      exact ih hrest f0

lemma midDeltas_eq (deps : List Dependence) (i : Nat)
    (hsd : ∀ dp ∈ deps, dp.possiblyBackward = true → dp.source < dp.destination) :
    midDeltas deps i = (startsCnt deps i + (W - 1) * endsCnt deps i) % W := by
  have h1 := midDeltas_fold_modeq deps i hsd (fun _ => 0)
  have h2 : midDeltas deps i < W :=
    midDeltas_fold_lt deps (fun _ => 0) (fun _ => W_pos) i
  have h3 : midDeltas deps i % W = (startsCnt deps i + (W - 1) * endsCnt deps i) % W := by
    simpa [midDeltas] using h1
  rw [← Nat.mod_eq_of_lt h2, h3]

lemma startsCnt_le_length (deps : List Dependence) (i : Nat) :
    startsCnt deps i ≤ deps.length := List.length_filter_le _ _

lemma endsCnt_le_length (deps : List Dependence) (i : Nat) :
    endsCnt deps i ≤ deps.length := List.length_filter_le _ _

lemma midDeltas_zero_iff (deps : List Dependence) (i : Nat)
    (hsd : ∀ dp ∈ deps, dp.possiblyBackward = true → dp.source < dp.destination)
    (hlen : deps.length < 2147483648) :
    midDeltas deps i = 0 ↔ startsCnt deps i = endsCnt deps i := by
  rw [midDeltas_eq deps i hsd]
  have hs := startsCnt_le_length deps i
  have he := endsCnt_le_length deps i
  have hW : W = 4294967296 := rfl
  rw [hW]
  omega

lemma endsCnt_pos_activeCount_pos (deps : List Dependence) (i : Nat)
    (hsd : ∀ dp ∈ deps, dp.possiblyBackward = true → dp.source < dp.destination) :
    0 < endsCnt deps i → 0 < activeCount deps i := by
  intro h
  obtain ⟨dp, hdp⟩ := List.exists_mem_of_length_pos h
  have hmem := List.mem_filter.mp hdp
  have hprop := hmem.2
  simp only [Bool.and_eq_true, decide_eq_true_eq] at hprop
  obtain ⟨hpb, hdest⟩ := hprop
  have hsd' : dp.source < dp.destination := hsd dp hmem.1 hpb
  apply List.length_pos_of_mem (a := dp)
  apply List.mem_filter.mpr
  refine ⟨hmem.1, ?_⟩
  simp only [Bool.and_eq_true, decide_eq_true_eq]
  exact ⟨⟨hpb, by omega⟩, by omega⟩

/-- Equivalence of the condition tested by the partition-building loop with
the condition stated by the spec. -/
lemma buildCond_iff (deps : List Dependence) (k : Nat)
    (hsd : ∀ dp ∈ deps, dp.possiblyBackward = true → dp.source < dp.destination)
    (hlen : deps.length < 2147483648) :
    (runningActive (midDeltas deps) k ≠ 0 ∨ midDeltas deps k ≠ 0)
      ↔ (activeCount deps k ≠ 0 ∨ startsCnt deps k ≠ 0) := by
  rw [runningActive_eq_activeCount deps k hsd hlen]
  constructor
  · rintro (h | h)
    · exact Or.inl h
    · by_cases hse : startsCnt deps k = 0
      · left
        have hne : startsCnt deps k ≠ endsCnt deps k :=
          fun hc => h ((midDeltas_zero_iff deps k hsd hlen).mpr hc)
        have hends : 0 < endsCnt deps k := by omega
        have := endsCnt_pos_activeCount_pos deps k hsd hends
        omega
      · exact Or.inr hse
  · rintro (h | h)
    · exact Or.inl h
    · by_cases hd : midDeltas deps k = 0
      · left
        have hse : startsCnt deps k = endsCnt deps k :=
          (midDeltas_zero_iff deps k hsd hlen).mp hd
        have hends : 0 < endsCnt deps k := by omega
        have := endsCnt_pos_activeCount_pos deps k hsd hends
        omega
      · exact Or.inr hd

lemma buildSeed_aux (instrs : List Nat) (deps : List Dependence)
    (hsd : ∀ dp ∈ deps, dp.possiblyBackward = true → dp.source < dp.destination)
    (hlen : deps.length < 2147483648) (k : Nat) :
    ((List.range k).foldl
      (fun (st : List InstPartition × Nat) i =>
        (if st.2 ≠ 0 ∨ midDeltas deps i ≠ 0
          then addToCyclicPartition st.1 (instrs.getD i 0)
          else addToNewNonCyclicPartition st.1 (instrs.getD i 0),
         (st.2 + midDeltas deps i) % W))
      ([], 0))
      = ((List.range k).foldl
          (fun parts i =>
            if activeCount deps i ≠ 0 ∨ startsCnt deps i ≠ 0
            then addToCyclicPartition parts (instrs.getD i 0)
            else addToNewNonCyclicPartition parts (instrs.getD i 0)) [],
         runningActive (midDeltas deps) k) := by
  induction k with
  | zero => simp [runningActive]
  | succ k ih =>
    simp only [List.range_succ, List.foldl_append, List.foldl_cons, List.foldl_nil]
    rw [ih]
    have hcond := buildCond_iff deps k hsd hlen
    have h2 : (runningActive (midDeltas deps) k + midDeltas deps k) % W
        = runningActive (midDeltas deps) (k + 1) := rfl
    exact congrArg₂ Prod.mk (if_congr hcond rfl rfl) h2

/-- C3: during partition building, each memory access, taken in program
order, is appended to the current cyclic partition (opening a new cyclic
partition when the last partition is absent or not cyclic) if and only if the
accumulated count of possibly-backward dependences active before that access
is nonzero or the access itself starts a new unsafe dependence; otherwise a
brand-new single-instruction acyclic partition is opened for it.  Stated as a
refinement: the code's builder (driven by the 32-bit accumulator and the
stored deltas) produces exactly the partitions of `specPartitionBuilder`,
which follows the spec's wording. -/
theorem c3_partition_builder_matches_spec (instrs : List Nat) (deps : List Dependence)
    (hsd : ∀ dp ∈ deps, dp.possiblyBackward = true → dp.source < dp.destination)
    (hlen : deps.length < 2147483648) :
    buildSeedPartitions (memoryInstructionDependences instrs deps)
      = specPartitionBuilder instrs deps := by
  unfold buildSeedPartitions memoryInstructionDependences specPartitionBuilder
  rw [List.foldl_map]
  exact congrArg Prod.fst (buildSeed_aux instrs deps hsd hlen instrs.length)

/-- Concrete instantiation of `c3_partition_builder_matches_spec`: three
accesses, one backward dependence from access 0 to access 1. -/
theorem c3_witness :
    buildSeedPartitions
        (memoryInstructionDependences [10, 20, 30] [Dependence.mk 0 1 true])
      = specPartitionBuilder [10, 20, 30] [Dependence.mk 0 1 true] :=
  c3_partition_builder_matches_spec [10, 20, 30] [Dependence.mk 0 1 true]
    (by decide) (by decide)

lemma moveTo_mem (P Q : InstPartition) (x : Nat) :
    x ∈ (P.moveTo Q).2.set ↔ x ∈ Q.set ∨ x ∈ P.set := by
  simp only [InstPartition.moveTo, List.mem_append, List.mem_filter]
  constructor
  · rintro (h | ⟨h, -⟩)
    · exact Or.inl h
    · exact Or.inr h
  · rintro (h | h)
    · exact Or.inl h
    · by_cases hq : x ∈ Q.set
      · exact Or.inl hq
      · refine Or.inr ⟨h, ?_⟩
        simp [hq]

lemma mergeRun_union (pred : InstPartition → Bool) (l : List InstPartition)
    (x : Nat) : ∀ f : InstPartition,
    (x ∈ (mergeRun pred f l).1.set ∨ ∃ Q ∈ (mergeRun pred f l).2, x ∈ Q.set)
      ↔ (x ∈ f.set ∨ ∃ P ∈ l, x ∈ P.set) := by
  induction l with
  | nil => intro f; simp [mergeRun]
  | cons P rest ih =>
    intro f
    simp only [mergeRun]
    by_cases h : pred P
    · simp only [h, if_pos]
      rw [ih ((P.moveTo f).2), moveTo_mem, List.exists_mem_cons_iff]
      tauto
    · rw [if_neg h]

lemma mergeRun_first_pid_flag (pred : InstPartition → Bool) (l : List InstPartition) :
    ∀ f : InstPartition,
    (mergeRun pred f l).1.pid = f.pid ∧
      (f.depCycle = true → (mergeRun pred f l).1.depCycle = true) := by
  induction l with
  | nil => intro f; simp [mergeRun]
  | cons P rest ih =>
    intro f
    simp only [mergeRun]
    by_cases h : pred P
    · simp only [h, if_pos]
      refine ⟨(ih _).1, fun hf => (ih _).2 ?_⟩
      simp [InstPartition.moveTo, hf]
    · rw [if_neg h]
      exact ⟨rfl, fun hf => hf⟩

lemma mergeRun_rest_mem (pred : InstPartition → Bool) (l : List InstPartition) :
    ∀ f : InstPartition, ∀ Q ∈ (mergeRun pred f l).2, Q ∈ l := by
  induction l with
  | nil => intro f Q hQ; simp [mergeRun] at hQ
  | cons P rest ih =>
    intro f Q hQ
    simp only [mergeRun] at hQ
    by_cases h : pred P
    · rw [if_pos h] at hQ
      exact List.mem_cons_of_mem _ (ih _ Q hQ)
    · rw [if_neg h] at hQ
      exact hQ

lemma mergeAdjacentAux_union (pred : InstPartition → Bool) (x : Nat) :
    ∀ (fuel : Nat) (l : List InstPartition), l.length ≤ fuel →
    ((∃ Q ∈ mergeAdjacentAux pred fuel l, x ∈ Q.set) ↔ (∃ P ∈ l, x ∈ P.set)) := by
  intro fuel
  induction fuel with
  | zero =>
    intro l _
    rw [mergeAdjacentAux]
  | succ fuel ih =>
    intro l hlen
    cases l with
    | nil => simp [mergeAdjacentAux]
    | cons P rest =>
      rw [mergeAdjacentAux]
      by_cases h : pred P
      · rw [if_pos h]
        have hr : (mergeRun pred P rest).2.length ≤ fuel :=
          le_trans (mergeRun_rest_length pred P rest) (Nat.le_of_succ_le_succ hlen)
        rw [List.exists_mem_cons_iff, List.exists_mem_cons_iff, ih _ hr]
        have := mergeRun_union pred rest x P
        tauto
      · rw [if_neg h]
        rw [List.exists_mem_cons_iff, List.exists_mem_cons_iff,
          ih rest (Nat.le_of_succ_le_succ hlen)]

lemma mergeAdjacentPartitionsIf_union (pred : InstPartition → Bool)
    (l : List InstPartition) (x : Nat) :
    (∃ Q ∈ mergeAdjacentPartitionsIf pred l, x ∈ Q.set) ↔ (∃ P ∈ l, x ∈ P.set) :=
  mergeAdjacentAux_union pred x l.length l (le_refl _)

lemma mergeAdjacentAux_origin (pred : InstPartition → Bool) :
    ∀ (fuel : Nat) (l : List InstPartition), l.length ≤ fuel →
    ∀ Q ∈ mergeAdjacentAux pred fuel l,
      ∃ P ∈ l, P.pid = Q.pid ∧ (P.depCycle = true → Q.depCycle = true) := by
  intro fuel
  induction fuel with
  | zero =>
    intro l _ Q hQ
    rw [mergeAdjacentAux] at hQ
    exact ⟨Q, hQ, rfl, fun hf => hf⟩
  | succ fuel ih =>
    intro l hlen Q hQ
    cases l with
    | nil => simp [mergeAdjacentAux] at hQ
    | cons P rest =>
      rw [mergeAdjacentAux] at hQ
      by_cases h : pred P
      · rw [if_pos h] at hQ
        rcases List.mem_cons.mp hQ with hQ1 | hQ2
        · refine ⟨P, List.mem_cons_self _ _, ?_⟩
          subst hQ1
          have h1 := (mergeRun_first_pid_flag pred rest P).1
          have h2 := (mergeRun_first_pid_flag pred rest P).2
          exact ⟨h1.symm, h2⟩
        · have hr : (mergeRun pred P rest).2.length ≤ fuel :=
            le_trans (mergeRun_rest_length pred P rest) (Nat.le_of_succ_le_succ hlen)
          obtain ⟨R, hR, hRQ⟩ := ih _ hr Q hQ2
          exact ⟨R, List.mem_cons_of_mem _ (mergeRun_rest_mem pred rest P R hR), hRQ⟩
      · rw [if_neg h] at hQ
        rcases List.mem_cons.mp hQ with hQ1 | hQ2
        · exact ⟨P, List.mem_cons_self _ _, by subst hQ1; exact ⟨rfl, fun hf => hf⟩⟩
        · obtain ⟨R, hR, hRQ⟩ := ih rest (Nat.le_of_succ_le_succ hlen) Q hQ2
          exact ⟨R, List.mem_cons_of_mem _ hR, hRQ⟩

lemma mergeAdjacentPartitionsIf_origin (pred : InstPartition → Bool)
    (l : List InstPartition) :
    ∀ Q ∈ mergeAdjacentPartitionsIf pred l,
      ∃ P ∈ l, P.pid = Q.pid ∧ (P.depCycle = true → Q.depCycle = true) :=
  mergeAdjacentAux_origin pred l.length l (le_refl _)

/-! ## Duplicate-load merging (`mergeToAvoidDuplicatedLoads`)

The C++ code uses the external ADT `EquivalenceClasses` (not part of this
excerpt).  It is modelled by a label array over partition positions: two
positions are in the same class iff they carry the same label; `unionSets` is
label relabelling, and the class representative (`isLeader`.. `member_begin`
iteration in the source) is modelled as the least member of the class. -/

/-- The class label of position `i` (positions not in the array are their own
label). -/
def labelOf (reps : List Nat) (i : Nat) : Nat := reps.getD i i

/-- Union the classes of `a` and `b` by relabelling `a`'s class with `b`'s
label. -/
def applyUnion (reps : List Nat) (a b : Nat) : List Nat :=
  reps.map (fun r => if r = labelOf reps a then labelOf reps b else r)

/-- Helper for `unionRange`, structurally recursive on the number of pending
unions. -/
def unionRangeGo (i : Nat) : Nat → List Nat → Nat → List Nat
  | 0, r, _ => r
  | k + 1, r, j => unionRangeGo i k (applyUnion r j i) (j + 1)

/-- Union position `i` with every position in `[i0, i)`; models the `do`-loop
of `mergeToAvoidDuplicatedLoads` that unions the current partition with every
partition back to (and including) the one that already holds the load. -/
def unionRange (reps : List Nat) (i0 i : Nat) : List Nat :=
  unionRangeGo i (i - i0) reps i0

/-- State of the scan over partitions: the `LoadToPartition` map (association
list, first association wins, as for `DenseMap::insert`), the equivalence
labels, and whether any union has been recorded (`ToBeMerged.empty()`). -/
structure DupScanState where
  loadToPart : List (Nat × Nat)
  reps : List Nat
  merged : Bool
deriving Repr, DecidableEq

/-- `LoadToPartition` lookup. -/
def lookupLoad (m : List (Nat × Nat)) (x : Nat) : Option Nat :=
  (m.find? (fun p => p.1 = x)).map (fun p => p.2)

/-- Processing one instruction of partition `i` during the duplicate-load
scan: loads are inserted into the map; when already present (from partition
`i0`), all partitions in `(i0, i]` are unioned with `i0`'s class. -/
def dupScanInst (isLoad : Nat → Bool) (i : Nat) (st : DupScanState) (x : Nat) :
    DupScanState :=
  if isLoad x then
    match lookupLoad st.loadToPart x with
    | none => { st with loadToPart := st.loadToPart ++ [(x, i)] }
    | some i0 => { st with reps := unionRange st.reps i0 i, merged := true }
  else st

/-- The instruction set of the partition at position `i`. -/
def partSet (parts : List InstPartition) (i : Nat) : List Nat :=
  (parts.getD i default).set

/-- The scan phase of `mergeToAvoidDuplicatedLoads`. -/
def dupScan (isLoad : Nat → Bool) (parts : List InstPartition) : DupScanState :=
  (List.range parts.length).foldl
    (fun st i => (partSet parts i).foldl (dupScanInst isLoad i) st)
    ⟨[], List.range parts.length, false⟩

/-- The members of the equivalence class of position `k` (in position order,
so the head is the least member, the modelled representative). -/
def classMembers (reps : List Nat) (n k : Nat) : List Nat :=
  (List.range n).filter (fun j => labelOf reps j = labelOf reps k)

/-- The merged instruction set of the class of `k`. -/
def mergedSet (parts : List InstPartition) (reps : List Nat) (k : Nat) : List Nat :=
  ((classMembers reps parts.length k).map (fun j => partSet parts j)).flatten

/-- The merge phase: each class's members `moveTo` its representative (the set
union and the `or` of the `DepCycle` flags accumulate there, the other members
become empty), then empty partitions are erased. -/
def dupMergeStep (parts : List InstPartition) (reps : List Nat) : List InstPartition :=
  ((List.range parts.length).map (fun k =>
    if (classMembers reps parts.length k).head? = some k then
      { parts.getD k default with
        set := mergedSet parts reps k,
        depCycle := ((classMembers reps parts.length k).map
          (fun j => (parts.getD j default).depCycle)).any id }
    else { parts.getD k default with set := ([] : List Nat) })).filter
    (fun P => !P.set.isEmpty)

/-- `InstPartitionContainer::mergeToAvoidDuplicatedLoads`: scan, then (if any
union was recorded) merge classes and drop emptied partitions; returns whether
anything was merged. -/
def mergeToAvoidDuplicatedLoads (isLoad : Nat → Bool) (parts : List InstPartition) :
    Bool × List InstPartition :=
  let st := dupScan isLoad parts
  if st.merged then (true, dupMergeStep parts st.reps) else (false, parts)

lemma applyUnion_length (reps : List Nat) (a b : Nat) :
    (applyUnion reps a b).length = reps.length := by
  simp [applyUnion]

lemma labelOf_applyUnion (reps : List Nat) (a b x : Nat) (hx : x < reps.length) :
    labelOf (applyUnion reps a b) x =
      (if labelOf reps x = labelOf reps a then labelOf reps b else labelOf reps x) := by
  have hx' : x < (applyUnion reps a b).length := by
    rw [applyUnion_length]; exact hx
  have h1 : labelOf (applyUnion reps a b) x = (applyUnion reps a b)[x] :=
    List.getD_eq_getElem _ _ hx'
  have h3 : labelOf reps x = reps[x] := List.getD_eq_getElem _ _ hx
  have h2 : (applyUnion reps a b)[x]
      = if reps[x] = labelOf reps a then labelOf reps b else reps[x] := by
    simp [applyUnion]
  rw [h1, h2, h3]

lemma labelOf_applyUnion_preserve (reps : List Nat) (a b x y : Nat)
    (hx : x < reps.length) (hy : y < reps.length)
    (h : labelOf reps x = labelOf reps y) :
    labelOf (applyUnion reps a b) x = labelOf (applyUnion reps a b) y := by
  rw [labelOf_applyUnion reps a b x hx, labelOf_applyUnion reps a b y hy, h]

lemma labelOf_applyUnion_join (reps : List Nat) (a b : Nat)
    (ha : a < reps.length) (hb : b < reps.length) :
    labelOf (applyUnion reps a b) a = labelOf (applyUnion reps a b) b := by
  rw [labelOf_applyUnion reps a b a ha, labelOf_applyUnion reps a b b hb]
  by_cases h : labelOf reps b = labelOf reps a
  · simp [h]
  · simp [h]

lemma unionRangeGo_length (i : Nat) :
    ∀ (k : Nat) (r : List Nat) (j : Nat), (unionRangeGo i k r j).length = r.length := by
  intro k
  induction k with
  | zero => intro r j; rfl
  | succ k ih =>
    intro r j
    rw [unionRangeGo, ih, applyUnion_length]

lemma unionRange_length (reps : List Nat) (i0 i : Nat) :
    (unionRange reps i0 i).length = reps.length :=
  unionRangeGo_length i (i - i0) reps i0

lemma unionRangeGo_preserve (i : Nat) :
    ∀ (k : Nat) (r : List Nat) (j x y : Nat), x < r.length → y < r.length →
      labelOf r x = labelOf r y →
      labelOf (unionRangeGo i k r j) x = labelOf (unionRangeGo i k r j) y := by
  intro k
  induction k with
  | zero => intro r j x y _ _ h; exact h
  | succ k ih =>
    intro r j x y hx hy h
    rw [unionRangeGo]
    apply ih
    · rw [applyUnion_length]; exact hx
    · rw [applyUnion_length]; exact hy
    · exact labelOf_applyUnion_preserve r j i x y hx hy h

lemma unionRange_preserve (reps : List Nat) (i0 i x y : Nat)
    (hx : x < reps.length) (hy : y < reps.length)
    (h : labelOf reps x = labelOf reps y) :
    labelOf (unionRange reps i0 i) x = labelOf (unionRange reps i0 i) y :=
  unionRangeGo_preserve i (i - i0) reps i0 x y hx hy h

lemma unionRangeGo_join (i : Nat) :
    ∀ (k : Nat) (r : List Nat) (j jj : Nat), i < r.length → j + k ≤ i →
      (j ≤ jj ∧ jj < j + k) ∨ jj = i →
      labelOf (unionRangeGo i k r j) jj = labelOf (unionRangeGo i k r j) i := by
  intro k
  induction k with
  | zero =>
    intro r j jj _ _ hcase
    rcases hcase with ⟨h1, h2⟩ | h
    · omega
    · rw [h]
  | succ k ih =>
    intro r j jj hi hk hcase
    rw [unionRangeGo]
    rcases hcase with ⟨h1, h2⟩ | h
    · by_cases hj : jj = j
      · subst hj
        apply unionRangeGo_preserve
        · rw [applyUnion_length]; omega
        · rw [applyUnion_length]; exact hi
        · exact labelOf_applyUnion_join r jj i (by omega) hi
      · apply ih
        · rw [applyUnion_length]; exact hi
        · omega
        · left; omega
    · apply ih
      · rw [applyUnion_length]; exact hi
      · omega
      · right; exact h

lemma unionRange_join (reps : List Nat) (i0 i j : Nat)
    (hj0 : i0 ≤ j) (hji : j ≤ i) (hi : i < reps.length) :
    labelOf (unionRange reps i0 i) j = labelOf (unionRange reps i0 i) i := by
  unfold unionRange
  by_cases hj : j = i
  · apply unionRangeGo_join i (i - i0) reps i0 j hi (by omega)
    right; exact hj
  · apply unionRangeGo_join i (i - i0) reps i0 j hi (by omega)
    left
    omega

lemma lookupLoad_cons (p : Nat × Nat) (rest : List (Nat × Nat)) (x : Nat) :
    lookupLoad (p :: rest) x = if p.1 = x then some p.2 else lookupLoad rest x := by
  by_cases h : p.1 = x
  · simp [lookupLoad, List.find?_cons_of_pos, h]
  · simp only [lookupLoad]
    rw [List.find?_cons_of_neg]
    · rw [if_neg h]
    · simp [h]

lemma lookupLoad_append_some (mp l : List (Nat × Nat)) (x v : Nat)
    (h : lookupLoad mp x = some v) : lookupLoad (mp ++ l) x = some v := by
  induction mp with
  | nil => simp [lookupLoad] at h
  | cons p rest ih =>
    rw [List.cons_append, lookupLoad_cons]
    rw [lookupLoad_cons] at h
    by_cases hp : p.1 = x
    · rw [if_pos hp] at h ⊢; exact h
    · rw [if_neg hp] at h ⊢; exact ih h

lemma lookupLoad_append_none (mp : List (Nat × Nat)) (x y j : Nat)
    (h : lookupLoad mp x = none) :
    lookupLoad (mp ++ [(y, j)]) x = if y = x then some j else none := by
  induction mp with
  | nil =>
    rw [List.nil_append, lookupLoad_cons]
    rfl
  | cons p rest ih =>
    rw [lookupLoad_cons] at h
    rw [List.cons_append, lookupLoad_cons]
    by_cases hp : p.1 = x
    · rw [if_pos hp] at h; exact absurd h (by simp)
    · rw [if_neg hp] at h ⊢; exact ih h

/-- Scan invariant: every `LoadToPartition` entry points to a partition
position below `n` and at most `b`. -/
def MapBound (n b : Nat) (mp : List (Nat × Nat)) : Prop :=
  ∀ p ∈ mp, p.2 < n ∧ p.2 ≤ b

/-- Scan invariant: every load in a partition below `m` is mapped, and its
mapped position carries the same class label as the partition's position. -/
def DoneOK (isLoad : Nat → Bool) (parts : List InstPartition) (m : Nat)
    (st : DupScanState) : Prop :=
  ∀ i, i < m → ∀ x ∈ partSet parts i, isLoad x = true →
    ∃ i0, lookupLoad st.loadToPart x = some i0 ∧
      labelOf st.reps i0 = labelOf st.reps i

lemma dupScanInst_step (isLoad : Nat → Bool)
    (n m : Nat) (hm : m < n) (st : DupScanState) (x : Nat)
    (hreps : st.reps.length = n) (hmb : MapBound n m st.loadToPart) :
    (dupScanInst isLoad m st x).reps.length = n ∧
    MapBound n m (dupScanInst isLoad m st x).loadToPart ∧
    ((dupScanInst isLoad m st x).merged = false → st.merged = false) ∧
    (∀ y v, lookupLoad st.loadToPart y = some v →
      lookupLoad (dupScanInst isLoad m st x).loadToPart y = some v) ∧
    (∀ a b, a < n → b < n → labelOf st.reps a = labelOf st.reps b →
      labelOf (dupScanInst isLoad m st x).reps a
        = labelOf (dupScanInst isLoad m st x).reps b) ∧
    (isLoad x = true →
      ∃ i0, i0 < n ∧
        lookupLoad (dupScanInst isLoad m st x).loadToPart x = some i0 ∧
        labelOf (dupScanInst isLoad m st x).reps i0
          = labelOf (dupScanInst isLoad m st x).reps m) ∧
    ((dupScanInst isLoad m st x).merged = false → isLoad x = true →
      lookupLoad st.loadToPart x = none) := by
  by_cases hl : isLoad x
  · simp only [dupScanInst, hl, if_pos]
    cases hlk : lookupLoad st.loadToPart x with
    | none =>
      refine ⟨hreps, ?_, fun h => h, ?_, fun a b _ _ h => h, ?_, ?_⟩
      · intro p hp
        rcases List.mem_append.mp hp with h1 | h2
        · exact hmb p h1
        · simp only [List.mem_singleton] at h2
          subst h2
          exact ⟨hm, le_refl m⟩
      · intro y v hv
        exact lookupLoad_append_some _ _ _ _ hv
      · intro _
        refine ⟨m, hm, ?_, rfl⟩
        rw [lookupLoad_append_none _ _ _ _ hlk, if_pos rfl]
      · intro _ _
        rfl
    | some i0 =>
      obtain ⟨hi0n, hi0m⟩ : i0 < n ∧ i0 ≤ m := by
        have : ∃ p ∈ st.loadToPart, p.2 = i0 := by
          simp only [lookupLoad, Option.map_eq_some'] at hlk
          obtain ⟨p, hp1, hp2⟩ := hlk
          exact ⟨p, List.mem_of_find?_eq_some hp1, hp2⟩
        obtain ⟨p, hp, hpv⟩ := this
        have := hmb p hp
        rw [hpv] at this
        exact this
      refine ⟨?_, hmb, ?_, fun y v hv => hv, ?_, ?_, ?_⟩
      · rw [unionRange_length, hreps]
      · intro h
        simp at h
      · intro a b ha hb h
        apply unionRange_preserve
        · rw [hreps]; exact ha
        · rw [hreps]; exact hb
        · exact h
      · intro _
        refine ⟨i0, hi0n, hlk, ?_⟩
        apply unionRange_join
        · exact le_refl i0
        · exact hi0m
        · rw [hreps]; exact hm
      · intro h
        simp at h
  · simp only [dupScanInst, hl, Bool.false_eq_true, if_false]
    exact ⟨hreps, hmb, fun h => h, fun y v hv => hv, fun a b _ _ h => h,
      fun h => h.elim, fun _ h => h.elim⟩

lemma lookupLoad_mem (mp : List (Nat × Nat)) (x v : Nat)
    (h : lookupLoad mp x = some v) : ∃ p ∈ mp, p.2 = v := by
  simp only [lookupLoad, Option.map_eq_some'] at h
  obtain ⟨p, hp1, hp2⟩ := h
  exact ⟨p, List.mem_of_find?_eq_some hp1, hp2⟩

lemma dupScanInner (isLoad : Nat → Bool) (n m : Nat) (hm : m < n) :
    ∀ (S : List Nat) (st : DupScanState),
    st.reps.length = n → MapBound n m st.loadToPart →
    (S.foldl (dupScanInst isLoad m) st).reps.length = n ∧
    MapBound n m (S.foldl (dupScanInst isLoad m) st).loadToPart ∧
    ((S.foldl (dupScanInst isLoad m) st).merged = false → st.merged = false) ∧
    (∀ y v, lookupLoad st.loadToPart y = some v →
      lookupLoad (S.foldl (dupScanInst isLoad m) st).loadToPart y = some v) ∧
    (∀ a b, a < n → b < n → labelOf st.reps a = labelOf st.reps b →
      labelOf (S.foldl (dupScanInst isLoad m) st).reps a
        = labelOf (S.foldl (dupScanInst isLoad m) st).reps b) ∧
    (∀ x ∈ S, isLoad x = true →
      ∃ i0, lookupLoad (S.foldl (dupScanInst isLoad m) st).loadToPart x = some i0 ∧
        labelOf (S.foldl (dupScanInst isLoad m) st).reps i0
          = labelOf (S.foldl (dupScanInst isLoad m) st).reps m) ∧
    ((S.foldl (dupScanInst isLoad m) st).merged = false →
      ∀ x ∈ S, isLoad x = true → lookupLoad st.loadToPart x = none) := by
  intro S
  induction S with
  | nil =>
    intro st hreps hmb
    refine ⟨hreps, hmb, fun h => h, fun y v hv => hv, fun a b _ _ h => h, ?_, ?_⟩
    · intro x hx
      simp at hx
    · intro _ x hx
      simp at hx
  | cons x S ih =>
    intro st hreps hmb
    simp only [List.foldl_cons]
    obtain ⟨s1, s2, s3, s4, s5, s6, s7⟩ := dupScanInst_step isLoad n m hm st x hreps hmb
    obtain ⟨i1, i2, i3, i4, i5, i6, i7⟩ := ih (dupScanInst isLoad m st x) s1 s2
    refine ⟨i1, i2, fun h => s3 (i3 h), fun y v hv => i4 y v (s4 y v hv),
      fun a b ha hb h => i5 a b ha hb (s5 a b ha hb h), ?_, ?_⟩
    · intro y hy hly
      rcases List.mem_cons.mp hy with hyx | hyS
    -- the head instruction: established at the post-step state, persisted
      · subst hyx
        obtain ⟨i0, hi0n, hlk, hlab⟩ := s6 hly
        exact ⟨i0, i4 y i0 hlk, i5 i0 m hi0n hm hlab⟩
      · exact i6 y hyS hly
    · intro h y hy hly
      rcases List.mem_cons.mp hy with hyx | hyS
      · subst hyx
        exact s7 (i3 h) hly
      · have h1 := i7 h y hyS hly
        cases hlk : lookupLoad st.loadToPart y with
        | none => rfl
        | some v =>
          have := s4 y v hlk
          rw [this] at h1
          exact absurd h1 (by simp)

/-- The outer scan invariant: after the partitions at positions `0..m-1` have
been scanned, every load occurring in one of them is mapped, mapped loads
share class labels with every scanned partition containing them, and if no
union was recorded then no load occurs in two scanned partitions. -/
lemma dupScan_aux (isLoad : Nat → Bool) (parts : List InstPartition) :
    ∀ m, m ≤ parts.length →
    ((List.range m).foldl
      (fun st i => (partSet parts i).foldl (dupScanInst isLoad i) st)
      ⟨[], List.range parts.length, false⟩).reps.length = parts.length ∧
    (∀ p ∈ ((List.range m).foldl
      (fun st i => (partSet parts i).foldl (dupScanInst isLoad i) st)
      ⟨[], List.range parts.length, false⟩).loadToPart, p.2 < parts.length ∧ p.2 < m) ∧
    DoneOK isLoad parts m
      ((List.range m).foldl
        (fun st i => (partSet parts i).foldl (dupScanInst isLoad i) st)
        ⟨[], List.range parts.length, false⟩) ∧
    (((List.range m).foldl
        (fun st i => (partSet parts i).foldl (dupScanInst isLoad i) st)
        ⟨[], List.range parts.length, false⟩).merged = false →
      ∀ x, isLoad x = true → ∀ i, i < m → ∀ j, j < m →
        x ∈ partSet parts i → x ∈ partSet parts j → i = j) := by
  intro m
  induction m with
  | zero =>
    intro _
    refine ⟨by simp, ?_, ?_, ?_⟩
    · intro p hp
      simp at hp
    · intro i hi
      exact absurd hi (Nat.not_lt_zero i)
    · intro _ x _ i hi
      exact absurd hi (Nat.not_lt_zero i)
  | succ m ih =>
    intro hm1
    have hm : m < parts.length := Nat.lt_of_succ_le hm1
    obtain ⟨o1, o2, o3, o4⟩ := ih (Nat.le_of_lt hm)
    simp only [List.range_succ, List.foldl_append, List.foldl_cons, List.foldl_nil]
    set st0 := (List.range m).foldl
      (fun st i => (partSet parts i).foldl (dupScanInst isLoad i) st)
      ⟨[], List.range parts.length, false⟩ with hst0
    have hmb : MapBound parts.length m st0.loadToPart :=
      fun p hp => ⟨(o2 p hp).1, Nat.le_of_lt (o2 p hp).2⟩
    obtain ⟨i1, i2, i3, i4, i5, i6, i7⟩ :=
      dupScanInner isLoad parts.length m hm (partSet parts m) st0 o1 hmb
    refine ⟨i1, ?_, ?_, ?_⟩
    · intro p hp
      have := i2 p hp
      exact ⟨this.1, Nat.lt_succ_of_le this.2⟩
    · intro i hi x hx hlx
      rcases Nat.lt_succ_iff_lt_or_eq.mp hi with hi' | hi'
      · obtain ⟨i0, hlk, hlab⟩ := o3 i hi' x hx hlx
        have hi0n : i0 < parts.length := by
          obtain ⟨p, hp, hpv⟩ := lookupLoad_mem _ _ _ hlk
          have := o2 p hp
          rw [hpv] at this
          exact this.1
        exact ⟨i0, i4 x i0 hlk, i5 i0 i hi0n (Nat.lt_trans hi' hm) hlab⟩
      · subst hi'
        exact i6 x hx hlx
    · intro h x hlx i hi j hj hxi hxj
      have h0 : st0.merged = false := i3 h
      rcases Nat.lt_succ_iff_lt_or_eq.mp hi with hi' | hi' <;>
        rcases Nat.lt_succ_iff_lt_or_eq.mp hj with hj' | hj'
      · exact o4 h0 x hlx i hi' j hj' hxi hxj
      · subst hj'
        have hnone := i7 h x hxj hlx
        obtain ⟨i0, hlk, -⟩ := o3 i hi' x hxi hlx
        rw [hnone] at hlk
        exact absurd hlk (by simp)
      · subst hi'
        have hnone := i7 h x hxi hlx
        obtain ⟨i0, hlk, -⟩ := o3 j hj' x hxj hlx
        rw [hnone] at hlk
        exact absurd hlk (by simp)
      · rw [hi', hj']

lemma dupScan_reps_length (isLoad : Nat → Bool) (parts : List InstPartition) :
    (dupScan isLoad parts).reps.length = parts.length :=
  (dupScan_aux isLoad parts parts.length (le_refl _)).1

lemma dupScan_classEq (isLoad : Nat → Bool) (parts : List InstPartition)
    (x i j : Nat) (hlx : isLoad x = true)
    (hi : i < parts.length) (hj : j < parts.length)
    (hxi : x ∈ partSet parts i) (hxj : x ∈ partSet parts j) :
    labelOf (dupScan isLoad parts).reps i = labelOf (dupScan isLoad parts).reps j := by
  obtain ⟨-, -, o3, -⟩ := dupScan_aux isLoad parts parts.length (le_refl _)
  obtain ⟨i0, hlki, hlabi⟩ := o3 i hi x hxi hlx
  obtain ⟨j0, hlkj, hlabj⟩ := o3 j hj x hxj hlx
  rw [hlki] at hlkj
  have : i0 = j0 := Option.some.inj hlkj
  subst this
  exact hlabi.symm.trans hlabj

lemma dupScan_not_merged_unique (isLoad : Nat → Bool) (parts : List InstPartition)
    (h : (dupScan isLoad parts).merged = false) :
    ∀ x, isLoad x = true → ∀ i, i < parts.length → ∀ j, j < parts.length →
      x ∈ partSet parts i → x ∈ partSet parts j → i = j :=
  (dupScan_aux isLoad parts parts.length (le_refl _)).2.2.2 h

lemma mem_classMembers (reps : List Nat) (n k j : Nat) :
    j ∈ classMembers reps n k ↔ j < n ∧ labelOf reps j = labelOf reps k := by
  simp [classMembers, List.mem_filter, List.mem_range]

lemma classMembers_congr (reps : List Nat) (n j k : Nat)
    (h : labelOf reps j = labelOf reps k) :
    classMembers reps n j = classMembers reps n k := by
  unfold classMembers
  apply List.filter_congr
  intro a _
  rw [h]

lemma mem_mergedSet (parts : List InstPartition) (reps : List Nat) (k x : Nat) :
    x ∈ mergedSet parts reps k
      ↔ ∃ j ∈ classMembers reps parts.length k, x ∈ partSet parts j := by
  simp only [mergedSet, List.mem_flatten, List.mem_map]
  constructor
  · rintro ⟨l, ⟨j, hj, rfl⟩, hx⟩
    exact ⟨j, hj, hx⟩
  · rintro ⟨j, hj, hx⟩
    exact ⟨partSet parts j, ⟨j, hj, rfl⟩, hx⟩

lemma head?_mem_of_mem {l : List Nat} {a : Nat} (h : a ∈ l) :
    ∃ r, l.head? = some r ∧ r ∈ l := by
  cases l with
  | nil => simp at h
  | cons b t => exact ⟨b, rfl, List.mem_cons_self _ _⟩

lemma countP_eq_one_of_unique {α : Type} (l : List α) (p : α → Bool) (a : α)
    (ha : a ∈ l) (hpa : p a = true) (hnd : l.Nodup)
    (huniq : ∀ b ∈ l, p b = true → b = a) : l.countP p = 1 := by
  induction l with
  | nil => simp at ha
  | cons b t ih =>
    have hnd' : t.Nodup := (List.nodup_cons.mp hnd).2
    have hbt : b ∉ t := (List.nodup_cons.mp hnd).1
    rcases List.mem_cons.mp ha with hab | hat
    · subst hab
      rw [List.countP_cons, if_pos hpa]
      have hzero : t.countP p = 0 := by
        rw [List.countP_eq_zero]
        intro c hc hpc
        have hca : c = a := huniq c (List.mem_cons_of_mem _ hc) hpc
        subst hca
        exact hbt hc
      rw [hzero]
    · have hpb : ¬ p b = true := by
        intro hpb
        have : b = a := huniq b (List.mem_cons_self _ _) hpb
        subst this
        exact hbt hat
      rw [List.countP_cons, if_neg hpb, Nat.add_zero]
      exact ih hat hnd' (fun c hc hpc => huniq c (List.mem_cons_of_mem _ hc) hpc)

lemma countP_positions {α : Type} (l : List α) (p : α → Bool) (d : α) :
    l.countP p = ((List.range l.length).countP (fun k => p (l.getD k d))) := by
  induction l with
  | nil => simp
  | cons a t ih =>
    rw [List.countP_cons]
    have h1 : (a :: t).length = t.length + 1 := rfl
    rw [h1, List.range_succ_eq_map, List.countP_cons, List.countP_map]
    have h2 : ((fun k => p ((a :: t).getD k d)) ∘ Nat.succ) = (fun k => p (t.getD k d)) := by
      funext k
      rfl
    rw [h2, ih]
    rfl

lemma mergeToAvoidDuplicatedLoads_snd (isLoad : Nat → Bool) (parts : List InstPartition) :
    (mergeToAvoidDuplicatedLoads isLoad parts).2
      = if (dupScan isLoad parts).merged then dupMergeStep parts (dupScan isLoad parts).reps
        else parts := by
  by_cases h : (dupScan isLoad parts).merged <;>
    simp [mergeToAvoidDuplicatedLoads, h]

/-- C5: for every load instruction `L` of the original loop (i.e. contained in
some partition when `mergeToAvoidDuplicatedLoads` starts), after
`mergeToAvoidDuplicatedLoads` returns, `L` is a member of exactly one
partition in the final partition sequence.  The definitions realize the
claimed mechanism: every partition between (and including) the earlier
partition already containing `L` and the current one is unioned into one
equivalence class (`dupScanInst`/`unionRange`), each class's members are
merged into its representative, and the emptied partitions are erased
(`dupMergeStep`). -/
theorem c5_load_in_exactly_one_partition (isLoad : Nat → Bool)
    (parts : List InstPartition) (L : Nat) (hL : isLoad L = true)
    (hIn : ∃ P ∈ parts, L ∈ P.set) :
    (((mergeToAvoidDuplicatedLoads isLoad parts).2).filter
      (fun P => decide (L ∈ P.set))).length = 1 := by
  obtain ⟨P0, hP0, hLP0⟩ := hIn
  obtain ⟨iS, hiS, hPi⟩ := List.mem_iff_getElem.mp hP0
  have hLiS : L ∈ partSet parts iS := by
    rw [partSet, List.getD_eq_getElem _ _ hiS, hPi]
    exact hLP0
  rw [mergeToAvoidDuplicatedLoads_snd]
  by_cases hmerged : (dupScan isLoad parts).merged
  · rw [if_pos hmerged]
    have hrl : (dupScan isLoad parts).reps.length = parts.length :=
      dupScan_reps_length isLoad parts
    have hA : ∀ i j, i < parts.length → j < parts.length →
        L ∈ partSet parts i → L ∈ partSet parts j →
        labelOf (dupScan isLoad parts).reps i = labelOf (dupScan isLoad parts).reps j :=
      fun i j hi hj hxi hxj => dupScan_classEq isLoad parts L i j hL hi hj hxi hxj
    have hiF : iS ∈ classMembers (dupScan isLoad parts).reps parts.length iS :=
      (mem_classMembers _ _ _ _).mpr ⟨hiS, rfl⟩
    obtain ⟨r, hFr, hrF⟩ := head?_mem_of_mem hiF
    obtain ⟨hrn, hrlab⟩ := (mem_classMembers _ _ _ _).mp hrF
    rw [dupMergeStep, List.filter_filter]
    have hcongr : ∀ P ∈ (List.range parts.length).map (fun k =>
        if (classMembers (dupScan isLoad parts).reps parts.length k).head? = some k then
          { parts.getD k default with
            set := mergedSet parts (dupScan isLoad parts).reps k,
            depCycle := ((classMembers (dupScan isLoad parts).reps parts.length k).map
              (fun j => (parts.getD j default).depCycle)).any id }
        else { parts.getD k default with set := ([] : List Nat) }),
        (decide (L ∈ P.set) && !P.set.isEmpty) = decide (L ∈ P.set) := by
      intro P _
      by_cases hq : L ∈ P.set
      · have hne : P.set ≠ [] := List.ne_nil_of_mem hq
        simp [hq, hne]
      · simp [hq]
    rw [List.filter_congr hcongr, ← List.countP_eq_length_filter, List.countP_map]
    apply countP_eq_one_of_unique _ _ r (List.mem_range.mpr hrn) _ (List.nodup_range _)
    · -- uniqueness: any position whose merged partition holds L is the representative
      intro k hk hq
      have hkn : k < parts.length := List.mem_range.mp hk
      simp only [Function.comp_apply, decide_eq_true_eq] at hq
      by_cases hrep : (classMembers (dupScan isLoad parts).reps parts.length k).head? = some k
      · rw [if_pos hrep] at hq
        simp only at hq
        obtain ⟨j, hjF, hLj⟩ := (mem_mergedSet _ _ _ _).mp hq
        obtain ⟨hjn, hjlab⟩ := (mem_classMembers _ _ _ _).mp hjF
        have hlab_kiS : labelOf (dupScan isLoad parts).reps k
            = labelOf (dupScan isLoad parts).reps iS := by
          rw [← hjlab]
          exact hA j iS hjn hiS hLj hLiS
        have hFk : classMembers (dupScan isLoad parts).reps parts.length k
            = classMembers (dupScan isLoad parts).reps parts.length iS :=
          classMembers_congr _ _ _ _ hlab_kiS
        rw [hFk, hFr] at hrep
        exact (Option.some.inj hrep).symm
      · rw [if_neg hrep] at hq
        simp only at hq
        exact absurd hq (List.not_mem_nil L)
    · -- the representative's merged partition does hold L
      have hFrr : classMembers (dupScan isLoad parts).reps parts.length r
          = classMembers (dupScan isLoad parts).reps parts.length iS :=
        classMembers_congr _ _ _ _ hrlab
      simp only [Function.comp_apply]
      rw [if_pos (by rw [hFrr]; exact hFr)]
      simp only [decide_eq_true_eq]
      exact (mem_mergedSet _ _ _ _).mpr ⟨iS, by rw [hFrr]; exact hiF, hLiS⟩
  · rw [if_neg hmerged]
    have hm' : (dupScan isLoad parts).merged = false := Bool.not_eq_true _ ▸ eq_false_of_ne_true hmerged
    rw [← List.countP_eq_length_filter, countP_positions parts _ default]
    apply countP_eq_one_of_unique _ _ iS (List.mem_range.mpr hiS) _ (List.nodup_range _)
    · intro k hk hq
      have hkn : k < parts.length := List.mem_range.mp hk
      simp only [decide_eq_true_eq] at hq
      exact dupScan_not_merged_unique isLoad parts hm' L hL k hkn iS hiS hq hLiS
    · simp only [decide_eq_true_eq]
      exact hLiS

/-- Concrete instantiation of `c5_load_in_exactly_one_partition`: load `1`
occurs in the first and third partitions; the pass must leave it in exactly
one partition. -/
theorem c5_witness :
    (((mergeToAvoidDuplicatedLoads (fun i => i == 1 || i == 3)
        [⟨0, [1], true⟩, ⟨1, [2], false⟩, ⟨2, [1, 3], false⟩]).2).filter
      (fun P => decide (1 ∈ P.set))).length = 1 :=
  c5_load_in_exactly_one_partition (fun i => i == 1 || i == 3)
    [⟨0, [1], true⟩, ⟨1, [2], false⟩, ⟨2, [1, 3], false⟩] 1 (by decide)
    ⟨⟨0, [1], true⟩, by decide, by decide⟩

lemma getD_mem_of_lt {α : Type} (l : List α) (k : Nat) (d : α) (h : k < l.length) :
    l.getD k d ∈ l := by
  rw [List.getD_eq_getElem _ _ h]
  exact List.getElem_mem h

lemma dupMergeStep_union (parts : List InstPartition) (reps : List Nat) (x : Nat) :
    (∃ Q ∈ dupMergeStep parts reps, x ∈ Q.set) ↔ ∃ P ∈ parts, x ∈ P.set := by
  constructor
  · rintro ⟨Q, hQ, hx⟩
    have hQ' := List.mem_filter.mp hQ
    obtain ⟨k, hk, hgk⟩ := List.mem_map.mp hQ'.1
    by_cases hrep : (classMembers reps parts.length k).head? = some k
    · rw [if_pos hrep] at hgk
      subst hgk
      obtain ⟨j, hjF, hxj⟩ := (mem_mergedSet _ _ _ _).mp hx
      obtain ⟨hjn, -⟩ := (mem_classMembers _ _ _ _).mp hjF
      exact ⟨parts.getD j default, getD_mem_of_lt _ _ _ hjn, hxj⟩
    · rw [if_neg hrep] at hgk
      subst hgk
      exact absurd hx (List.not_mem_nil x)
  · rintro ⟨P, hP, hx⟩
    obtain ⟨iS, hiS, hPi⟩ := List.mem_iff_getElem.mp hP
    have hxiS : x ∈ partSet parts iS := by
      rw [partSet, List.getD_eq_getElem _ _ hiS, hPi]
      exact hx
    have hiF : iS ∈ classMembers reps parts.length iS :=
      (mem_classMembers _ _ _ _).mpr ⟨hiS, rfl⟩
    obtain ⟨r, hFr, hrF⟩ := head?_mem_of_mem hiF
    obtain ⟨hrn, hrlab⟩ := (mem_classMembers _ _ _ _).mp hrF
    have hFrr : classMembers reps parts.length r = classMembers reps parts.length iS :=
      classMembers_congr _ _ _ _ hrlab
    refine ⟨{ parts.getD r default with
      set := mergedSet parts reps r,
      depCycle := ((classMembers reps parts.length r).map
        (fun j => (parts.getD j default).depCycle)).any id }, ?_, ?_⟩
    · apply List.mem_filter.mpr
      constructor
      · apply List.mem_map.mpr
        refine ⟨r, List.mem_range.mpr hrn, ?_⟩
        rw [if_pos (by rw [hFrr]; exact hFr)]
      · have hxm : x ∈ mergedSet parts reps r :=
          (mem_mergedSet _ _ _ _).mpr ⟨iS, by rw [hFrr]; exact hiF, hxiS⟩
        have hne : mergedSet parts reps r ≠ [] := List.ne_nil_of_mem hxm
        simp only [Bool.not_eq_true']
        cases hcase : mergedSet parts reps r with
        | nil => exact absurd hcase hne
        | cons a t => rfl
    · exact (mem_mergedSet _ _ _ _).mpr ⟨iS, by rw [hFrr]; exact hiF, hxiS⟩

lemma dupMergeStep_origin (parts : List InstPartition) (reps : List Nat) :
    ∀ Q ∈ dupMergeStep parts reps,
      ∃ P ∈ parts, P.pid = Q.pid ∧ (P.depCycle = true → Q.depCycle = true) := by
  intro Q hQ
  have hQ' := List.mem_filter.mp hQ
  obtain ⟨k, hk, hgk⟩ := List.mem_map.mp hQ'.1
  have hkn : k < parts.length := List.mem_range.mp hk
  by_cases hrep : (classMembers reps parts.length k).head? = some k
  · rw [if_pos hrep] at hgk
    subst hgk
    refine ⟨parts.getD k default, getD_mem_of_lt _ _ _ hkn, rfl, ?_⟩
    intro hP
    simp only
    apply List.any_eq_true.mpr
    refine ⟨(parts.getD k default).depCycle, ?_, by rw [hP]; rfl⟩
    apply List.mem_map.mpr
    exact ⟨k, (mem_classMembers _ _ _ _).mpr ⟨hkn, rfl⟩, rfl⟩
  · rw [if_neg hrep] at hgk
    have hempty : Q.set = [] := by rw [← hgk]
    have := hQ'.2
    rw [hempty] at this
    simp at this

/-- C10: after `P.moveTo(Q)` the instruction set of `Q` is the union of the
two previous sets, the instruction set of `P` is empty, and `Q`'s
dependence-cycle flag is the OR of the two previous flags; consequently every
merge pass (adjacent-acyclic, non-if-convertible, and duplicate-load)
preserves the union of all instructions held across the partition sequence
and never drops a cyclic flag from a surviving partition (every final
partition descends from an initial partition with the same object identity
and a flag that only grew). -/
theorem c10_moveTo_and_merge_passes_preserve :
    (∀ P Q : InstPartition, ∀ x : Nat,
      (x ∈ (P.moveTo Q).2.set ↔ x ∈ Q.set ∨ x ∈ P.set) ∧
      (P.moveTo Q).1.set = [] ∧
      (P.moveTo Q).2.depCycle = (Q.depCycle || P.depCycle)) ∧
    (∀ parts : List InstPartition, ∀ x : Nat,
      ((∃ Q ∈ mergeAdjacentNonCyclic parts, x ∈ Q.set) ↔ ∃ P ∈ parts, x ∈ P.set)) ∧
    (∀ parts : List InstPartition, ∀ Q ∈ mergeAdjacentNonCyclic parts,
      ∃ P ∈ parts, P.pid = Q.pid ∧ (P.depCycle = true → Q.depCycle = true)) ∧
    (∀ isStore needsPredication : Nat → Bool, ∀ parts : List InstPartition, ∀ x : Nat,
      ((∃ Q ∈ mergeNonIfConvertible isStore needsPredication parts, x ∈ Q.set)
        ↔ ∃ P ∈ parts, x ∈ P.set)) ∧
    (∀ isStore needsPredication : Nat → Bool, ∀ parts : List InstPartition,
      ∀ Q ∈ mergeNonIfConvertible isStore needsPredication parts,
      ∃ P ∈ parts, P.pid = Q.pid ∧ (P.depCycle = true → Q.depCycle = true)) ∧
    (∀ isLoad : Nat → Bool, ∀ parts : List InstPartition, ∀ x : Nat,
      ((∃ Q ∈ (mergeToAvoidDuplicatedLoads isLoad parts).2, x ∈ Q.set)
        ↔ ∃ P ∈ parts, x ∈ P.set)) ∧
    (∀ isLoad : Nat → Bool, ∀ parts : List InstPartition,
      ∀ Q ∈ (mergeToAvoidDuplicatedLoads isLoad parts).2,
      ∃ P ∈ parts, P.pid = Q.pid ∧ (P.depCycle = true → Q.depCycle = true)) := by
  refine ⟨?_, ?_, ?_, ?_, ?_, ?_, ?_⟩
  · intro P Q x
    exact ⟨moveTo_mem P Q x, rfl, rfl⟩
  · intro parts x
    exact mergeAdjacentPartitionsIf_union _ parts x
  · intro parts Q hQ
    exact mergeAdjacentPartitionsIf_origin _ parts Q hQ
  · intro isStore needsPredication parts x
    exact mergeAdjacentPartitionsIf_union _ parts x
  · intro isStore needsPredication parts Q hQ
    exact mergeAdjacentPartitionsIf_origin _ parts Q hQ
  · intro isLoad parts x
    rw [mergeToAvoidDuplicatedLoads_snd]
    by_cases h : (dupScan isLoad parts).merged
    · rw [if_pos h]
      exact dupMergeStep_union parts _ x
    · rw [if_neg h]
  · intro isLoad parts Q hQ
    rw [mergeToAvoidDuplicatedLoads_snd] at hQ
    by_cases h : (dupScan isLoad parts).merged
    · rw [if_pos h] at hQ
      exact dupMergeStep_origin parts _ Q hQ
    · rw [if_neg h] at hQ
      exact ⟨Q, hQ, rfl, fun hf => hf⟩

/-- Concrete instantiation of `c10_moveTo_and_merge_passes_preserve`: the
surviving merged partition of an adjacent-acyclic merge descends from an
initial partition with the same identity and a monotone flag. -/
theorem c10_witness :
    ∃ P ∈ [(⟨0, [1], true⟩ : InstPartition), ⟨1, [2], false⟩, ⟨2, [3], false⟩],
      P.pid = (⟨1, [2, 3], false⟩ : InstPartition).pid ∧
      (P.depCycle = true → (⟨1, [2, 3], false⟩ : InstPartition).depCycle = true) :=
  c10_moveTo_and_merge_passes_preserve.2.2.1
    [⟨0, [1], true⟩, ⟨1, [2], false⟩, ⟨2, [3], false⟩]
    ⟨1, [2, 3], false⟩ (by decide)

/-! ## Transitive-closure population and dead-instruction pruning

The loop body is a list of basic blocks; each block is a list of instruction
records (id, type, whether it is a branch, operand list).  Operands are
references to instructions or `undef` values carrying a type
(`UndefValue::get(Inst->getType())`). -/

/-- An operand: a use of an instruction, or an undef constant of a type. -/
inductive Operand where
  | ref : Nat → Operand
  | undef : Nat → Operand
deriving DecidableEq, Repr

/-- An instruction record of the loop body. -/
structure Instr where
  iid : Nat
  ty : Nat
  isBranch : Bool
  ops : List Operand
deriving DecidableEq, Repr

/-- All instructions of the loop, in block order. -/
def loopInsts (blocks : List (List Instr)) : List Instr := blocks.flatten

/-- The terminator of every block of the loop (`B->getTerminator()`). -/
def terminators (blocks : List (List Instr)) : List Instr :=
  blocks.filterMap List.getLast?

/-- The instruction ids of the loop. -/
def loopInstIds (blocks : List (List Instr)) : List Nat :=
  (loopInsts blocks).map Instr.iid

/-- Look an instruction of the loop up by id. -/
def findInst (blocks : List (List Instr)) (i : Nat) : Option Instr :=
  (loopInsts blocks).find? (fun ins => ins.iid == i)

/-- The instruction-id operands of an instruction (`operand_values` filtered
through `dyn_cast<Instruction>`). -/
def operandRefs (ins : Instr) : List Nat :=
  ins.ops.filterMap (fun o => match o with | Operand.ref j => some j | _ => none)

/-- Set insertion (insert into a `SmallPtrSet`). -/
def insertNew (s : List Nat) (i : Nat) : List Nat :=
  if s.contains i then s else s ++ [i]

/-- One round of the use-def worklist: add every loop-internal operand of
every member of the set. -/
def closureStep (blocks : List (List Instr)) (s : List Nat) : List Nat :=
  s.foldl
    (fun acc i =>
      match findInst blocks i with
      | none => acc
      | some ins =>
        (operandRefs ins).foldl
          (fun acc2 j => if (loopInstIds blocks).contains j then insertNew acc2 j else acc2)
          acc)
    s

/-- Iterate a function `n` times. -/
def iterate {α : Type} (f : α → α) : Nat → α → α
  | 0, a => a
  | n + 1, a => iterate f n (f a)

/-- `InstPartition::populateUsedSet`: insert every block terminator, then form
the use-def transitive closure of the seeded instructions (the worklist loop,
modelled as enough rounds of `closureStep` to reach the fixed point). -/
def populateUsedSet (blocks : List (List Instr)) (seed : List Nat) : List Nat :=
  iterate (closureStep blocks) (loopInsts blocks).length
    ((terminators blocks).foldl (fun acc t => insertNew acc t.iid) seed)

/-- Replace a use of `x` by an undef value of `x`'s type. -/
def undefOp (x : Instr) (o : Operand) : Operand :=
  if o = Operand.ref x.iid then Operand.undef x.ty else o

/-- `Inst->replaceAllUsesWith(UndefValue::get(Inst->getType()))`. -/
def replaceAllUsesWithUndef (x : Instr) (blocks : List (List Instr)) :
    List (List Instr) :=
  blocks.map (fun bl => bl.map (fun ins => { ins with ops := ins.ops.map (undefOp x) }))

/-- `Inst->eraseFromParent()`. -/
def eraseInst (x : Instr) (blocks : List (List Instr)) : List (List Instr) :=
  blocks.map (fun bl => bl.filter (fun ins => ins.iid != x.iid))

/-- The instructions of the loop that are not in the partition's set, in
program order (the `Unused` vector). -/
def unusedInsts (blocks : List (List Instr)) (s : List Nat) : List Instr :=
  (loopInsts blocks).filter (fun ins => !s.contains ins.iid)

/-- `InstPartition::removeUnusedInsts`: collect the unused instructions in
program order, then delete them backwards, replacing remaining uses with an
undef of the deleted instruction's type before erasing. -/
def removeUnusedInsts (blocks : List (List Instr)) (s : List Nat) :
    List (List Instr) :=
  (unusedInsts blocks s).reverse.foldl
    (fun acc x => eraseInst x (replaceAllUsesWithUndef x acc)) blocks

/-- The cumulative effect on one operand of deleting the instructions of
`del` in order. -/
def scrubOp (del : List Instr) (o : Operand) : Operand :=
  del.foldl (fun acc x => undefOp x acc) o

/-- The cumulative effect on one instruction of the use-replacements performed
while deleting the instructions of `del`. -/
def scrubInstr (del : List Instr) (ins : Instr) : Instr :=
  { ins with ops := ins.ops.map (scrubOp del) }

/-- Whether `ins` survives the deletion of `del`. -/
def notDeleted (del : List Instr) (ins : Instr) : Bool :=
  !((del.map Instr.iid).contains ins.iid)

lemma insertNew_mem (s : List Nat) (i x : Nat) : x ∈ insertNew s i ↔ x ∈ s ∨ x = i := by
  unfold insertNew
  by_cases h : s.contains i
  · have hi : i ∈ s := List.mem_of_elem_eq_true h
    rw [if_pos h]
    constructor
    · exact Or.inl
    · rintro (hx | hx)
      · exact hx
      · rw [hx]; exact hi
  · rw [if_neg h]
    simp [List.mem_append]

lemma foldl_preserve_mem {β : Type} (g : List Nat → β → List Nat)
    (hg : ∀ acc b x, x ∈ acc → x ∈ g acc b) :
    ∀ (L : List β) (acc : List Nat) (x : Nat), x ∈ acc → x ∈ L.foldl g acc := by
  intro L
  induction L with
  | nil => intro acc x hx; exact hx
  | cons b L ih =>
    intro acc x hx
    exact ih (g acc b) x (hg acc b x hx)

lemma foldl_insertNew_mem {β : Type} (f : β → Nat) :
    ∀ (L : List β) (s : List Nat) (t : β), t ∈ L →
      f t ∈ L.foldl (fun acc t => insertNew acc (f t)) s := by
  intro L
  induction L with
  | nil => intro s t ht; simp at ht
  | cons b L ih =>
    intro s t ht
    rcases List.mem_cons.mp ht with h | h
    · subst h
      rw [List.foldl_cons]
      apply foldl_preserve_mem (fun acc u => insertNew acc (f u))
        (fun acc u x hx => (insertNew_mem acc (f u) x).mpr (Or.inl hx))
      exact (insertNew_mem _ _ _).mpr (Or.inr rfl)
    · exact ih _ t h

lemma closureStep_supset (blocks : List (List Instr)) (s : List Nat) (x : Nat)
    (hx : x ∈ s) : x ∈ closureStep blocks s := by
  unfold closureStep
  apply foldl_preserve_mem
  · intro acc i y hy
    cases findInst blocks i with
    | none => exact hy
    | some ins =>
      simp only
      apply foldl_preserve_mem
      · intro acc2 j z hz
        by_cases hj : (loopInstIds blocks).contains j
        · rw [if_pos hj]
          exact (insertNew_mem acc2 j z).mpr (Or.inl hz)
        · rw [if_neg hj]
          exact hz
      · exact hy
  · exact hx

lemma iterate_closureStep_supset (blocks : List (List Instr)) :
    ∀ (n : Nat) (s : List Nat) (x : Nat), x ∈ s →
      x ∈ iterate (closureStep blocks) n s := by
  intro n
  induction n with
  | zero => intro s x hx; exact hx
  | succ n ih =>
    intro s x hx
    exact ih (closureStep blocks s) x (closureStep_supset blocks s x hx)

/-- `populateUsedSet` always holds every block terminator of the loop. -/
lemma populateUsedSet_supset_terminators (blocks : List (List Instr)) (seed : List Nat) :
    ∀ t ∈ terminators blocks, t.iid ∈ populateUsedSet blocks seed := by
  intro t ht
  unfold populateUsedSet
  apply iterate_closureStep_supset
  exact foldl_insertNew_mem Instr.iid (terminators blocks) seed t ht

lemma notDeleted_cons (x : Instr) (del : List Instr) (ins : Instr) :
    notDeleted (x :: del) ins = ((ins.iid != x.iid) && notDeleted del ins) := by
  simp only [notDeleted, List.map_cons, List.contains_cons]
  cases h : ins.iid == x.iid <;> simp [bne, h]

lemma scrubInstr_cons (x : Instr) (del : List Instr) (ins : Instr) :
    scrubInstr del { ins with ops := ins.ops.map (undefOp x) } = scrubInstr (x :: del) ins := by
  simp only [scrubInstr, List.map_map]
  rfl

lemma removeOne_block (x : Instr) (del : List Instr) :
    ∀ bl : List Instr,
    (((bl.map (fun ins => { ins with ops := ins.ops.map (undefOp x) })).filter
        (fun ins => ins.iid != x.iid)).filter (notDeleted del)).map (scrubInstr del)
      = (bl.filter (notDeleted (x :: del))).map (scrubInstr (x :: del)) := by
  intro bl
  induction bl with
  | nil => rfl
  | cons ins bl ih =>
    have hiid : (({ ins with ops := ins.ops.map (undefOp x) } : Instr).iid != x.iid)
        = (ins.iid != x.iid) := rfl
    have hnd : notDeleted del { ins with ops := ins.ops.map (undefOp x) }
        = notDeleted del ins := rfl
    simp only [List.map_cons, List.filter_cons]
    by_cases h1 : (ins.iid != x.iid) = true
    · by_cases h2 : notDeleted del ins = true
      · have hrhs : notDeleted (x :: del) ins = true := by
          rw [notDeleted_cons, h1, h2]
          rfl
        rw [if_pos (hiid.trans h1), List.filter_cons, if_pos (hnd.trans h2), if_pos hrhs,
          List.map_cons, List.map_cons, scrubInstr_cons, ih]
      · have h2f : notDeleted del ins = false := eq_false_of_ne_true h2
        have hrhs : notDeleted (x :: del) ins = false := by
          rw [notDeleted_cons, h2f]
          simp
        rw [if_pos (hiid.trans h1), List.filter_cons,
          if_neg (by rw [hnd, h2f]; exact Bool.false_ne_true),
          if_neg (by rw [hrhs]; exact Bool.false_ne_true), ih]
    · have h1f : (ins.iid != x.iid) = false := eq_false_of_ne_true h1
      have hrhs : notDeleted (x :: del) ins = false := by
        rw [notDeleted_cons, h1f]
        simp
      rw [if_neg (by rw [hiid, h1f]; exact Bool.false_ne_true),
        if_neg (by rw [hrhs]; exact Bool.false_ne_true), ih]

lemma removeFold_char :
    ∀ (del : List Instr) (blocks : List (List Instr)),
    del.foldl (fun acc x => eraseInst x (replaceAllUsesWithUndef x acc)) blocks
      = blocks.map (fun bl => (bl.filter (notDeleted del)).map (scrubInstr del)) := by
  intro del
  induction del with
  | nil =>
    intro blocks
    simp only [List.foldl_nil]
    have hbl : ∀ bl : List Instr,
        (fun bl : List Instr => (bl.filter (notDeleted [])).map (scrubInstr [])) bl = id bl := by
      intro bl
      have h1 : ∀ a ∈ bl, notDeleted [] a = true := fun a _ => rfl
      have h2 : ∀ ins : Instr, scrubInstr [] ins = ins := by
        intro ins
        have hid : scrubOp ([] : List Instr) = fun o => o := funext fun _ => rfl
        simp [scrubInstr, hid]
      simp only [List.filter_eq_self.mpr h1, id]
      calc bl.map (scrubInstr []) = bl.map id := by
            exact List.map_congr_left (fun a _ => h2 a)
        _ = bl := List.map_id bl
    rw [funext hbl, List.map_id]
  | cons x del ih =>
    intro blocks
    rw [List.foldl_cons, ih]
    simp only [eraseInst, replaceAllUsesWithUndef, List.map_map]
    exact congrArg (fun fn => List.map fn blocks)
      (funext fun bl => by simpa [Function.comp] using removeOne_block x del bl)

lemma scrubOp_cases : ∀ (del : List Instr) (o : Operand),
    scrubOp del o = o ∨ ∃ t, scrubOp del o = Operand.undef t := by
  intro del
  induction del with
  | nil => intro o; exact Or.inl rfl
  | cons x del ih =>
    intro o
    have hstep : scrubOp (x :: del) o = scrubOp del (undefOp x o) := rfl
    rw [hstep]
    unfold undefOp
    by_cases h : o = Operand.ref x.iid
    · rw [if_pos h]
      rcases ih (Operand.undef x.ty) with h1 | ⟨t, h1⟩
      · exact Or.inr ⟨x.ty, h1⟩
      · exact Or.inr ⟨t, h1⟩
    · rw [if_neg h]
      exact ih o

lemma scrubOp_ne_deleted : ∀ (del : List Instr) (o : Operand) (x : Instr), x ∈ del →
    scrubOp del o ≠ Operand.ref x.iid := by
  intro del
  induction del with
  | nil => intro o x hx; simp at hx
  | cons y del ih =>
    intro o x hx
    have hstep : scrubOp (y :: del) o = scrubOp del (undefOp y o) := rfl
    rw [hstep]
    rcases List.mem_cons.mp hx with h | h
    · subst h
      have hne : undefOp x o ≠ Operand.ref x.iid := by
        unfold undefOp
        by_cases ho : o = Operand.ref x.iid
        · rw [if_pos ho]
          intro hc
          cases hc
        · rw [if_neg ho]
          exact ho
      rcases scrubOp_cases del (undefOp x o) with h1 | ⟨t, h1⟩
      · rw [h1]
        exact hne
      · rw [h1]
        intro hc
        cases hc
    · exact ih (undefOp y o) x h

/-- C8: for every partition on which `populateUsedSet` has run, every loop
instruction outside the partition's set is not a branch (because
`populateUsedSet` inserts every block terminator into every partition's set),
so the assertion in `removeUnusedInsts` always holds and no branch is ever
deleted; moreover `removeUnusedInsts` deletes exactly the instructions
outside the set, first replacing each remaining use of a deleted instruction
by an undef value of that instruction's type (the `scrubInstr`
characterization), so no surviving instruction references a deleted one. -/
theorem c8_pruning_safe (blocks : List (List Instr)) (seed : List Nat)
    (hbr : ∀ ins ∈ loopInsts blocks, ins.isBranch = true → ins ∈ terminators blocks) :
    (∀ ins ∈ unusedInsts blocks (populateUsedSet blocks seed), ins.isBranch = false) ∧
    removeUnusedInsts blocks (populateUsedSet blocks seed)
      = blocks.map (fun bl =>
          (bl.filter (notDeleted (unusedInsts blocks (populateUsedSet blocks seed)).reverse)).map
            (scrubInstr (unusedInsts blocks (populateUsedSet blocks seed)).reverse)) ∧
    (∀ bl ∈ removeUnusedInsts blocks (populateUsedSet blocks seed), ∀ ins ∈ bl,
      ∀ x ∈ unusedInsts blocks (populateUsedSet blocks seed),
        Operand.ref x.iid ∉ ins.ops) := by
  have hchar := removeFold_char (unusedInsts blocks (populateUsedSet blocks seed)).reverse blocks
  refine ⟨?_, hchar, ?_⟩
  · intro ins hins
    obtain ⟨hmem, hnotin⟩ := List.mem_filter.mp hins
    cases hb : ins.isBranch with
    | false => rfl
    | true =>
      exfalso
      have hterm : ins ∈ terminators blocks := hbr ins hmem hb
      have hid : ins.iid ∈ populateUsedSet blocks seed :=
        populateUsedSet_supset_terminators blocks seed ins hterm
      have hcontains : (populateUsedSet blocks seed).contains ins.iid = true :=
        List.elem_eq_true_of_mem hid
      rw [hcontains] at hnotin
      exact absurd hnotin (by simp)
  · intro bl hbl ins hins x hx
    have hrm : removeUnusedInsts blocks (populateUsedSet blocks seed)
        = blocks.map (fun bl =>
            (bl.filter (notDeleted (unusedInsts blocks (populateUsedSet blocks seed)).reverse)).map
              (scrubInstr (unusedInsts blocks (populateUsedSet blocks seed)).reverse)) := hchar
    rw [hrm] at hbl
    obtain ⟨bl0, _, hbl0⟩ := List.mem_map.mp hbl
    subst hbl0
    obtain ⟨ins0, _, hins0⟩ := List.mem_map.mp hins
    subst hins0
    intro hop
    obtain ⟨o0, -, ho0⟩ := List.mem_map.mp hop
    exact scrubOp_ne_deleted _ o0 x (List.mem_reverse.mpr hx) ho0

/-- Concrete instantiation of `c8_pruning_safe`: a one-block loop whose
instruction `3` is unused; the pruning result is characterised exactly. -/
theorem c8_witness :
    removeUnusedInsts
        [[⟨1, 0, false, []⟩, ⟨2, 0, false, [Operand.ref 1]⟩,
          ⟨3, 7, false, [Operand.ref 2]⟩, ⟨9, 0, true, []⟩]]
        (populateUsedSet
          [[⟨1, 0, false, []⟩, ⟨2, 0, false, [Operand.ref 1]⟩,
            ⟨3, 7, false, [Operand.ref 2]⟩, ⟨9, 0, true, []⟩]] [2])
      = [[⟨1, 0, false, []⟩, ⟨2, 0, false, [Operand.ref 1]⟩,
          ⟨3, 7, false, [Operand.ref 2]⟩, ⟨9, 0, true, []⟩]].map (fun bl =>
          (bl.filter (notDeleted
            (unusedInsts
              [[⟨1, 0, false, []⟩, ⟨2, 0, false, [Operand.ref 1]⟩,
                ⟨3, 7, false, [Operand.ref 2]⟩, ⟨9, 0, true, []⟩]]
              (populateUsedSet
                [[⟨1, 0, false, []⟩, ⟨2, 0, false, [Operand.ref 1]⟩,
                  ⟨3, 7, false, [Operand.ref 2]⟩, ⟨9, 0, true, []⟩]] [2])).reverse)).map
            (scrubInstr
              (unusedInsts
                [[⟨1, 0, false, []⟩, ⟨2, 0, false, [Operand.ref 1]⟩,
                  ⟨3, 7, false, [Operand.ref 2]⟩, ⟨9, 0, true, []⟩]]
                (populateUsedSet
                  [[⟨1, 0, false, []⟩, ⟨2, 0, false, [Operand.ref 1]⟩,
                    ⟨3, 7, false, [Operand.ref 2]⟩, ⟨9, 0, true, []⟩]] [2])).reverse)) :=
  (c8_pruning_safe
    [[⟨1, 0, false, []⟩, ⟨2, 0, false, [Operand.ref 1]⟩,
      ⟨3, 7, false, [Operand.ref 2]⟩, ⟨9, 0, true, []⟩]] [2] (by decide)).2.1

/-! ## Scoped no-alias annotation (`annotateNoAlias`)

Metadata is modelled as two maps from instruction id to the list of attached
scopes; `MDNode::concatenate` appends.  The anonymous alias scope created via
`MDBuilder` is the external `scope` value. -/

/-- Metadata state: `!noalias` and `!alias.scope` attachments per instruction. -/
structure MDState where
  noalias : Nat → List Nat
  aliasScope : Nat → List Nat

/-- The condition of `InstPartition::annotateNoAlias`: a load participating in
store-to-load forwarding, or a store not participating in it. -/
def stlfQualifies (isLoad isStore : Nat → Bool) (fwd : List Nat) (i : Nat) : Bool :=
  (isLoad i && fwd.contains i) || (isStore i && !fwd.contains i)

/-- Attach `scope` to both metadata kinds of instruction `i`
(`setMetadata(MD_noalias, concatenate ...)` and the `MD_alias_scope`
counterpart). -/
def annotateInst (scope : Nat) (i : Nat) (md : MDState) : MDState :=
  { noalias := fun j => if j = i then md.noalias j ++ [scope] else md.noalias j,
    aliasScope := fun j => if j = i then md.aliasScope j ++ [scope] else md.aliasScope j }

/-- `InstPartition::annotateNoAlias`: annotate every qualifying instruction of
the partition. -/
def annotateNoAliasPartition (scope : Nat) (isLoad isStore : Nat → Bool)
    (fwd : List Nat) (P : InstPartition) (md : MDState) : MDState :=
  P.set.foldl
    (fun m j => if stlfQualifies isLoad isStore fwd j then annotateInst scope j m else m) md

/-- `InstPartitionContainer::annotateNoAlias`: run the per-partition
annotator on the partitions that have a dependence cycle. -/
def annotateNoAlias (scope : Nat) (isLoad isStore : Nat → Bool) (fwd : List Nat)
    (parts : List InstPartition) (md : MDState) : MDState :=
  parts.foldl
    (fun m P =>
      if P.depCycle then annotateNoAliasPartition scope isLoad isStore fwd P m else m) md

lemma annotatePartition_fold (scope : Nat) (isLoad isStore : Nat → Bool)
    (fwd : List Nat) (i : Nat) :
    ∀ (S : List Nat) (md : MDState), S.Nodup →
    ((S.foldl
        (fun m j => if stlfQualifies isLoad isStore fwd j then annotateInst scope j m else m)
        md).noalias i
      = (if i ∈ S ∧ stlfQualifies isLoad isStore fwd i = true
          then md.noalias i ++ [scope] else md.noalias i)) ∧
    ((S.foldl
        (fun m j => if stlfQualifies isLoad isStore fwd j then annotateInst scope j m else m)
        md).aliasScope i
      = (if i ∈ S ∧ stlfQualifies isLoad isStore fwd i = true
          then md.aliasScope i ++ [scope] else md.aliasScope i)) := by
  intro S
  induction S with
  | nil =>
    intro md _
    constructor
    · rw [List.foldl_nil, if_neg (by rintro ⟨h, -⟩; simp at h)]
    · rw [List.foldl_nil, if_neg (by rintro ⟨h, -⟩; simp at h)]
  | cons x S ih =>
    intro md hnd
    have hxS : x ∉ S := (List.nodup_cons.mp hnd).1
    have hndS : S.Nodup := (List.nodup_cons.mp hnd).2
    rw [List.foldl_cons]
    obtain ⟨ihn, iha⟩ := ih (if stlfQualifies isLoad isStore fwd x
      then annotateInst scope x md else md) hndS
    constructor
    · rw [ihn]
      by_cases hq : stlfQualifies isLoad isStore fwd x = true
      · rw [if_pos hq]
        by_cases hiS : i ∈ S ∧ stlfQualifies isLoad isStore fwd i = true
        · have hix : i ≠ x := fun h => hxS (h ▸ hiS.1)
          rw [if_pos hiS]
          have : (annotateInst scope x md).noalias i = md.noalias i := by
            simp [annotateInst, hix]
          rw [this, if_pos ⟨List.mem_cons_of_mem _ hiS.1, hiS.2⟩]
        · rw [if_neg hiS]
          by_cases hix : i = x
          · subst hix
            have : (annotateInst scope i md).noalias i = md.noalias i ++ [scope] := by
              simp [annotateInst]
            rw [this, if_pos ⟨List.mem_cons_self _ _, hq⟩]
          · have : (annotateInst scope x md).noalias i = md.noalias i := by
              simp [annotateInst, hix]
            rw [this, if_neg ?h1]
            rintro ⟨hmem, hqi⟩
            rcases List.mem_cons.mp hmem with h | h
            · exact hix h
            · exact hiS ⟨h, hqi⟩
      · rw [if_neg hq]
        by_cases hiS : i ∈ S ∧ stlfQualifies isLoad isStore fwd i = true
        · rw [if_pos hiS, if_pos ⟨List.mem_cons_of_mem _ hiS.1, hiS.2⟩]
        · rw [if_neg hiS, if_neg ?h2]
          rintro ⟨hmem, hqi⟩
          rcases List.mem_cons.mp hmem with h | h
          · subst h
            exact absurd hqi hq
          · exact hiS ⟨h, hqi⟩
    · rw [iha]
      by_cases hq : stlfQualifies isLoad isStore fwd x = true
      · rw [if_pos hq]
        by_cases hiS : i ∈ S ∧ stlfQualifies isLoad isStore fwd i = true
        · have hix : i ≠ x := fun h => hxS (h ▸ hiS.1)
          rw [if_pos hiS]
          have : (annotateInst scope x md).aliasScope i = md.aliasScope i := by
            simp [annotateInst, hix]
          rw [this, if_pos ⟨List.mem_cons_of_mem _ hiS.1, hiS.2⟩]
        · rw [if_neg hiS]
          by_cases hix : i = x
          · subst hix
            have : (annotateInst scope i md).aliasScope i = md.aliasScope i ++ [scope] := by
              simp [annotateInst]
            rw [this, if_pos ⟨List.mem_cons_self _ _, hq⟩]
          · have : (annotateInst scope x md).aliasScope i = md.aliasScope i := by
              simp [annotateInst, hix]
            rw [this, if_neg ?h3]
            rintro ⟨hmem, hqi⟩
            rcases List.mem_cons.mp hmem with h | h
            · exact hix h
            · exact hiS ⟨h, hqi⟩
      · rw [if_neg hq]
        by_cases hiS : i ∈ S ∧ stlfQualifies isLoad isStore fwd i = true
        · rw [if_pos hiS, if_pos ⟨List.mem_cons_of_mem _ hiS.1, hiS.2⟩]
        · rw [if_neg hiS, if_neg ?h4]
          rintro ⟨hmem, hqi⟩
          rcases List.mem_cons.mp hmem with h | h
          · subst h
            exact absurd hqi hq
          · exact hiS ⟨h, hqi⟩

lemma annotateNoAlias_char (scope : Nat) (isLoad isStore : Nat → Bool)
    (fwd : List Nat) (i : Nat) :
    ∀ (parts : List InstPartition) (md : MDState),
    (∀ P ∈ parts, P.set.Nodup) →
    (parts.filter (fun P => P.depCycle && decide (i ∈ P.set))).length ≤ 1 →
    ((annotateNoAlias scope isLoad isStore fwd parts md).noalias i
      = if (∃ P ∈ parts, P.depCycle = true ∧ i ∈ P.set)
            ∧ stlfQualifies isLoad isStore fwd i = true
          then md.noalias i ++ [scope] else md.noalias i) ∧
    ((annotateNoAlias scope isLoad isStore fwd parts md).aliasScope i
      = if (∃ P ∈ parts, P.depCycle = true ∧ i ∈ P.set)
            ∧ stlfQualifies isLoad isStore fwd i = true
          then md.aliasScope i ++ [scope] else md.aliasScope i) := by
  intro parts
  induction parts with
  | nil =>
    intro md _ _
    have hcond : ¬ ((∃ P ∈ ([] : List InstPartition), P.depCycle = true ∧ i ∈ P.set)
        ∧ stlfQualifies isLoad isStore fwd i = true) := by
      rintro ⟨⟨P, hP, -⟩, -⟩
      simp at hP
    exact ⟨by rw [if_neg hcond]; rfl, by rw [if_neg hcond]; rfl⟩
  | cons P parts ih =>
    intro md hnd hcnt
    have hP_nodup : P.set.Nodup := hnd P (List.mem_cons_self _ _)
    have hnd' : ∀ Q ∈ parts, Q.set.Nodup := fun Q hQ => hnd Q (List.mem_cons_of_mem _ hQ)
    have hcnt_tail :
        (parts.filter (fun Q => Q.depCycle && decide (i ∈ Q.set))).length ≤ 1 := by
      rw [List.filter_cons] at hcnt
      by_cases hp : (P.depCycle && decide (i ∈ P.set)) = true
      · rw [if_pos hp] at hcnt
        simp only [List.length_cons] at hcnt
        omega
      · rw [if_neg hp] at hcnt
        exact hcnt
    have hap := annotatePartition_fold scope isLoad isStore fwd i P.set md hP_nodup
    have hstep : annotateNoAlias scope isLoad isStore fwd (P :: parts) md
        = annotateNoAlias scope isLoad isStore fwd parts
            (if P.depCycle then annotateNoAliasPartition scope isLoad isStore fwd P md
             else md) := rfl
    obtain ⟨ihn, iha⟩ := ih
      (if P.depCycle then annotateNoAliasPartition scope isLoad isStore fwd P md else md)
      hnd' hcnt_tail
    have hmd1n : (if P.depCycle then annotateNoAliasPartition scope isLoad isStore fwd P md
          else md).noalias i
        = if P.depCycle = true ∧ i ∈ P.set ∧ stlfQualifies isLoad isStore fwd i = true
          then md.noalias i ++ [scope] else md.noalias i := by
      by_cases hc : P.depCycle = true
      · rw [if_pos hc]
        have := hap.1
        rw [show (annotateNoAliasPartition scope isLoad isStore fwd P md).noalias i
            = (P.set.foldl (fun m j =>
                if stlfQualifies isLoad isStore fwd j then annotateInst scope j m else m)
                md).noalias i from rfl, this]
        by_cases hin : i ∈ P.set ∧ stlfQualifies isLoad isStore fwd i = true
        · rw [if_pos hin, if_pos ⟨hc, hin.1, hin.2⟩]
        · rw [if_neg hin, if_neg (by rintro ⟨-, h1, h2⟩; exact hin ⟨h1, h2⟩)]
      · rw [if_neg hc, if_neg (by rintro ⟨h1, -⟩; exact hc h1)]
    have hmd1a : (if P.depCycle then annotateNoAliasPartition scope isLoad isStore fwd P md
          else md).aliasScope i
        = if P.depCycle = true ∧ i ∈ P.set ∧ stlfQualifies isLoad isStore fwd i = true
          then md.aliasScope i ++ [scope] else md.aliasScope i := by
      by_cases hc : P.depCycle = true
      · rw [if_pos hc]
        have := hap.2
        rw [show (annotateNoAliasPartition scope isLoad isStore fwd P md).aliasScope i
            = (P.set.foldl (fun m j =>
                if stlfQualifies isLoad isStore fwd j then annotateInst scope j m else m)
                md).aliasScope i from rfl, this]
        by_cases hin : i ∈ P.set ∧ stlfQualifies isLoad isStore fwd i = true
        · rw [if_pos hin, if_pos ⟨hc, hin.1, hin.2⟩]
        · rw [if_neg hin, if_neg (by rintro ⟨-, h1, h2⟩; exact hin ⟨h1, h2⟩)]
      · rw [if_neg hc, if_neg (by rintro ⟨h1, -⟩; exact hc h1)]
    rw [hstep]
    by_cases hq : stlfQualifies isLoad isStore fwd i = true
    · by_cases hPc : P.depCycle = true ∧ i ∈ P.set
      · have hhead : (P.depCycle && decide (i ∈ P.set)) = true := by
          rw [hPc.1]
          simp [hPc.2]
        have htail0 :
            (parts.filter (fun Q => Q.depCycle && decide (i ∈ Q.set))).length = 0 := by
          rw [List.filter_cons, if_pos hhead] at hcnt
          simp only [List.length_cons] at hcnt
          omega
        have htail_none : ¬ ∃ Q ∈ parts, Q.depCycle = true ∧ i ∈ Q.set := by
          rintro ⟨Q, hQ, hQc, hQi⟩
          have : Q ∈ parts.filter (fun Q => Q.depCycle && decide (i ∈ Q.set)) :=
            List.mem_filter.mpr ⟨hQ, by rw [hQc]; simp [hQi]⟩
          rw [List.length_eq_zero.mp htail0] at this
          simp at this
        constructor
        · rw [ihn, if_neg (by rintro ⟨h, -⟩; exact htail_none h), hmd1n,
            if_pos ⟨hPc.1, hPc.2, hq⟩,
            if_pos ⟨⟨P, List.mem_cons_self _ _, hPc.1, hPc.2⟩, hq⟩]
        · rw [iha, if_neg (by rintro ⟨h, -⟩; exact htail_none h), hmd1a,
            if_pos ⟨hPc.1, hPc.2, hq⟩,
            if_pos ⟨⟨P, List.mem_cons_self _ _, hPc.1, hPc.2⟩, hq⟩]
      · have hmd1n' : (if P.depCycle then annotateNoAliasPartition scope isLoad isStore fwd P md
            else md).noalias i = md.noalias i := by
          rw [hmd1n, if_neg (by rintro ⟨h1, h2, -⟩; exact hPc ⟨h1, h2⟩)]
        have hmd1a' : (if P.depCycle then annotateNoAliasPartition scope isLoad isStore fwd P md
            else md).aliasScope i = md.aliasScope i := by
          rw [hmd1a, if_neg (by rintro ⟨h1, h2, -⟩; exact hPc ⟨h1, h2⟩)]
        have hiff : ((∃ Q ∈ parts, Q.depCycle = true ∧ i ∈ Q.set)
              ∧ stlfQualifies isLoad isStore fwd i = true)
            ↔ ((∃ Q ∈ P :: parts, Q.depCycle = true ∧ i ∈ Q.set)
              ∧ stlfQualifies isLoad isStore fwd i = true) := by
          constructor
          · rintro ⟨⟨Q, hQ, hQ2⟩, h2⟩
            exact ⟨⟨Q, List.mem_cons_of_mem _ hQ, hQ2⟩, h2⟩
          · rintro ⟨⟨Q, hQ, hQ2⟩, h2⟩
            rcases List.mem_cons.mp hQ with h | h
            · exact absurd ⟨(h ▸ hQ2).1, (h ▸ hQ2).2⟩ hPc
            · exact ⟨⟨Q, h, hQ2⟩, h2⟩
        constructor
        · rw [ihn, hmd1n', if_congr hiff rfl rfl]
        · rw [iha, hmd1a', if_congr hiff rfl rfl]
    · have hmd1n' : (if P.depCycle then annotateNoAliasPartition scope isLoad isStore fwd P md
          else md).noalias i = md.noalias i := by
        rw [hmd1n, if_neg (by rintro ⟨-, -, h⟩; exact hq h)]
      have hmd1a' : (if P.depCycle then annotateNoAliasPartition scope isLoad isStore fwd P md
          else md).aliasScope i = md.aliasScope i := by
        rw [hmd1a, if_neg (by rintro ⟨-, -, h⟩; exact hq h)]
      constructor
      · rw [ihn, hmd1n', if_neg (by rintro ⟨-, h⟩; exact hq h),
          if_neg (by rintro ⟨-, h⟩; exact hq h)]
      · rw [iha, hmd1a', if_neg (by rintro ⟨-, h⟩; exact hq h),
          if_neg (by rintro ⟨-, h⟩; exact hq h)]

/-! ## Loop versioning (`RuntimeCheckEmitter::versionLoop`) -/

/-- A conditional branch (`BranchInst::Create(IfTrue, IfFalse, Cond, ...)`). -/
structure Branch where
  trueDest : Nat
  falseDest : Nat
  cond : Nat
deriving DecidableEq, Repr

/-- Where a conditional branch transfers control for a given condition value. -/
def branchTarget (b : Branch) (condHolds : Bool) : Nat :=
  if condHolds then b.trueDest else b.falseDest

/-- The control-flow produced by `versionLoop`. -/
structure VersionedCFG where
  memCheckBB : Nat
  distPH : Nat
  nonDistPH : Nat
  guard : Branch
  exitBlock : Nat
  exitBlockIdom : Nat
deriving DecidableEq, Repr

/-- `RuntimeCheckEmitter::versionLoop`: the original preheader becomes the
memcheck block; `SplitBlock` gives the distributed loop a fresh empty
preheader (`freshPH`, the loop's preheader from here on);
`cloneLoopWithPreheader` gives the non-distributed fallback its own preheader
(`freshNonDistPH`); the memcheck block's terminator is replaced by
`BranchInst::Create(NonDistributedLoop->getLoopPreheader(),
OrigLoop->getLoopPreheader(), MemRuntimeCheck)`; finally the exit block's
immediate dominator becomes the memcheck block. -/
def versionLoop (origPH exitBlock freshPH freshNonDistPH memRuntimeCheck : Nat) :
    VersionedCFG :=
  { memCheckBB := origPH
    distPH := freshPH
    nonDistPH := freshNonDistPH
    guard := { trueDest := freshNonDistPH, falseDest := freshPH, cond := memRuntimeCheck }
    exitBlock := exitBlock
    exitBlockIdom := origPH }

/-- C1 counterexample: at a concrete loop, the branch installed by
`versionLoop` does not send a true condition to the distributed chain and a
false condition to the fallback loop; the claim fails as stated. -/
theorem c1_counterexample :
    ¬ (branchTarget (versionLoop 0 10 1 2 5).guard true = (versionLoop 0 10 1 2 5).distPH ∧
       branchTarget (versionLoop 0 10 1 2 5).guard false = (versionLoop 0 10 1 2 5).nonDistPH) := by
  decide

/-- C1 (amended): the conditional branch that `versionLoop` installs in place
of the memcheck block's terminator transfers control to the fallback
(non-distributed) loop's preheader when the runtime-check condition
(`MemRuntimeCheck`, true when the pointers may overlap) is true, and to the
distributed chain (the original loop's preheader created by the split) when
the condition is false. -/
theorem c1_branch_targets (origPH exitBlock freshPH freshNonDistPH memRuntimeCheck : Nat) :
    branchTarget
        (versionLoop origPH exitBlock freshPH freshNonDistPH memRuntimeCheck).guard true
      = (versionLoop origPH exitBlock freshPH freshNonDistPH memRuntimeCheck).nonDistPH ∧
    branchTarget
        (versionLoop origPH exitBlock freshPH freshNonDistPH memRuntimeCheck).guard false
      = (versionLoop origPH exitBlock freshPH freshNonDistPH memRuntimeCheck).distPH :=
  ⟨rfl, rfl⟩

/-! ## The driver (`LoopDistribute::processLoop`)

The IR state is an abstract type `σ`; the CFG/dominator-tree mutating
primitives (`SplitBlock`, `versionLoop`, `addPHINodes`, metadata annotation,
`cloneLoops`, `removeUnusedInsts`) are state transformers supplied by the
context, while everything that decides control flow (partitioning, merging,
population, forwarding detection) is the concrete code modelled above.  The
driver also emits a trace of the stages it executed. -/

/-- The stages of `processLoop`, in the order the code runs them. -/
inductive Stage where
  | seeding
  | merging
  | populating
  | dupLoadMerging
  | settingIds
  | splittingPreheader
  | versioning
  | addingPHIs
  | annotating
  | cloning
  | pruning
deriving DecidableEq, Repr

/-- Analysis results and collaborator oracles consumed by `processLoop`. -/
structure LoopContext (σ : Type) where
  hasPreheader : Bool
  hasSingleExitBlock : Bool
  canVectorizeMemory : Bool
  interestingDependences : Option (List Dependence)
  memoryInstructions : List Nat
  blocks : List (List Instr)
  defsUsedOutside : List Nat
  isLoad : Nat → Bool
  isStore : Nat → Bool
  needsPredication : Nat → Bool
  distributeNonIfConvertible : Bool
  addMemcheckForStoreToLoadElimination : Bool
  needsPreheaderSplit : Bool
  needsChecks : List InstPartition → Bool
  splitBlock : σ → σ
  runVersionLoop : σ → σ
  runAddPHINodes : σ → σ
  runAnnotateNoAlias : σ → σ
  runCloneLoops : σ → σ
  runRemoveUnusedInsts : σ → σ

/-- The seeded partitions: the memory-access loop followed by one new
non-cyclic partition per value defined in the loop and used outside. -/
def seededPartitions (memInstrs : List Nat) (deps : List Dependence)
    (defsUsedOutside : List Nat) : List InstPartition :=
  defsUsedOutside.foldl addToNewNonCyclicPartition
    (buildSeedPartitions (memoryInstructionDependences memInstrs deps))

/-- The partitions after the pre-population merges and `populateUsedSet`. -/
def populatedPartitions {σ : Type} (ctx : LoopContext σ) (deps : List Dependence) :
    List InstPartition :=
  (mergeBeforePopulating ctx.distributeNonIfConvertible ctx.isStore ctx.needsPredication
    (seededPartitions ctx.memoryInstructions deps ctx.defsUsedOutside)).map
    (fun P => { P with set := populateUsedSet ctx.blocks P.set })

/-- The store-to-load-forwarding candidate instructions (loads and their
forwarding stores of possibly-backward dependences), collected when the
`AddMemcheckForStoreToLoadElimination` flag is on. -/
def storeToLoadForwardingInsts (flag : Bool) (memInstrs : List Nat)
    (deps : List Dependence) (isLoad isStore : Nat → Bool) : List Nat :=
  if flag then
    deps.foldl
      (fun acc dp =>
        if dp.possiblyBackward then
          if isLoad (memInstrs.getD dp.source 0) && isStore (memInstrs.getD dp.destination 0)
          then insertNew (insertNew acc (memInstrs.getD dp.source 0))
            (memInstrs.getD dp.destination 0)
          else acc
        else acc)
      []
  else []

/-- `LoopDistribute::processLoop`: the bail-out ladder, the partitioning
pipeline, and the transformation tail, returning the changed flag, the final
IR state, and the executed stages. -/
def processLoop {σ : Type} (ctx : LoopContext σ) (s : σ) : Bool × σ × List Stage :=
  if !ctx.hasPreheader then (false, s, [])
  else if !ctx.hasSingleExitBlock then (false, s, [])
  else if ctx.canVectorizeMemory then (false, s, [])
  else
    match ctx.interestingDependences with
    | none => (false, s, [])
    | some deps =>
      if deps.isEmpty then (false, s, [])
      else
        if (seededPartitions ctx.memoryInstructions deps ctx.defsUsedOutside).length < 2 then
          (false, s, [Stage.seeding])
        else
          if (mergeBeforePopulating ctx.distributeNonIfConvertible ctx.isStore
              ctx.needsPredication
              (seededPartitions ctx.memoryInstructions deps ctx.defsUsedOutside)).length < 2 then
            (false, s, [Stage.seeding, Stage.merging])
          else
            if (mergeToAvoidDuplicatedLoads ctx.isLoad (populatedPartitions ctx deps)).1
                && decide ((mergeToAvoidDuplicatedLoads ctx.isLoad
                    (populatedPartitions ctx deps)).2.length < 2) then
              (false, s,
                [Stage.seeding, Stage.merging, Stage.populating, Stage.dupLoadMerging])
            else
              -- setupPartitionIdOnInstructions builds the instruction→partition
              -- map; it performs no IR mutation, so only its stage is traced.
              let s1 := if ctx.needsPreheaderSplit then ctx.splitBlock s else s
              let vres :=
                if ctx.needsChecks
                    (mergeToAvoidDuplicatedLoads ctx.isLoad (populatedPartitions ctx deps)).2 then
                  if (storeToLoadForwardingInsts ctx.addMemcheckForStoreToLoadElimination
                      ctx.memoryInstructions deps ctx.isLoad ctx.isStore).isEmpty then
                    (ctx.runAddPHINodes (ctx.runVersionLoop s1),
                     [Stage.versioning, Stage.addingPHIs])
                  else
                    (ctx.runAnnotateNoAlias (ctx.runAddPHINodes (ctx.runVersionLoop s1)),
                     [Stage.versioning, Stage.addingPHIs, Stage.annotating])
                else (s1, [])
              (true, ctx.runRemoveUnusedInsts (ctx.runCloneLoops vres.1),
               [Stage.seeding, Stage.merging, Stage.populating, Stage.dupLoadMerging,
                 Stage.settingIds]
                 ++ (if ctx.needsPreheaderSplit then [Stage.splittingPreheader] else [])
                 ++ vres.2 ++ [Stage.cloning, Stage.pruning])

/-- C2: if `processLoop` declines to distribute, it returns `false`, the IR
state (covering the function's IR, dominator tree and loop-nest structure,
all folded into the abstract state `σ`) is returned completely unchanged, and
no mutation stage (preheader split, versioning, PHI insertion, annotation,
cloning, pruning) was executed: every stage in the trace is one of the pure
analysis/partitioning stages that precede all bail-out checks. -/
theorem c2_bailout_leaves_ir_unchanged {σ : Type} (ctx : LoopContext σ) (s : σ) :
    (processLoop ctx s).1 = false →
      (processLoop ctx s).2.1 = s ∧
      (processLoop ctx s).2.2
        ⊆ [Stage.seeding, Stage.merging, Stage.populating, Stage.dupLoadMerging] := by
  cases h1 : ctx.hasPreheader with
  | false =>
    intro _
    refine ⟨by simp [processLoop, h1], ?_⟩
    simp [processLoop, h1]
  | true =>
    cases h2 : ctx.hasSingleExitBlock with
    | false =>
      intro _
      refine ⟨by simp [processLoop, h1, h2], ?_⟩
      simp [processLoop, h1, h2]
    | true =>
      cases h3 : ctx.canVectorizeMemory with
      | true =>
        intro _
        refine ⟨by simp [processLoop, h1, h2, h3], ?_⟩
        simp [processLoop, h1, h2, h3]
      | false =>
        cases hdeps : ctx.interestingDependences with
        | none =>
          intro _
          refine ⟨by simp [processLoop, h1, h2, h3, hdeps], ?_⟩
          simp [processLoop, h1, h2, h3, hdeps]
        | some deps =>
          by_cases h4 : deps.isEmpty
          · intro _
            refine ⟨by simp [processLoop, h1, h2, h3, hdeps, h4], ?_⟩
            simp [processLoop, h1, h2, h3, hdeps, h4]
          · by_cases h5 :
              (seededPartitions ctx.memoryInstructions deps ctx.defsUsedOutside).length < 2
            · intro _
              refine ⟨by simp [processLoop, h1, h2, h3, hdeps, h4, h5], ?_⟩
              simp [processLoop, h1, h2, h3, hdeps, h4, h5]
            · by_cases h6 : (mergeBeforePopulating ctx.distributeNonIfConvertible ctx.isStore
                  ctx.needsPredication
                  (seededPartitions ctx.memoryInstructions deps ctx.defsUsedOutside)).length < 2
              · intro _
                refine ⟨by simp [processLoop, h1, h2, h3, hdeps, h4, h5, h6], ?_⟩
                simp [processLoop, h1, h2, h3, hdeps, h4, h5, h6]
              · by_cases h7 : ((mergeToAvoidDuplicatedLoads ctx.isLoad
                      (populatedPartitions ctx deps)).1
                    && decide ((mergeToAvoidDuplicatedLoads ctx.isLoad
                        (populatedPartitions ctx deps)).2.length < 2)) = true
                · intro _
                  refine ⟨by simp [processLoop, h1, h2, h3, hdeps, h4, h5, h6, h7], ?_⟩
                  simp [processLoop, h1, h2, h3, hdeps, h4, h5, h6, h7]
                · intro hfalse
                  exfalso
                  simp [processLoop, h1, h2, h3, hdeps, h4, h5, h6, h7] at hfalse

/-- A bail-out context: memory is already safe to vectorize. -/
def ctxC2 : LoopContext Nat :=
  { hasPreheader := true
    hasSingleExitBlock := true
    canVectorizeMemory := true
    interestingDependences := none
    memoryInstructions := []
    blocks := []
    defsUsedOutside := []
    isLoad := fun _ => false
    isStore := fun _ => false
    needsPredication := fun _ => false
    distributeNonIfConvertible := false
    addMemcheckForStoreToLoadElimination := true
    needsPreheaderSplit := false
    needsChecks := fun _ => false
    splitBlock := Nat.succ
    runVersionLoop := Nat.succ
    runAddPHINodes := Nat.succ
    runAnnotateNoAlias := Nat.succ
    runCloneLoops := Nat.succ
    runRemoveUnusedInsts := Nat.succ }

/-- Concrete instantiation of `c2_bailout_leaves_ir_unchanged`. -/
theorem c2_witness :
    (processLoop ctxC2 7).2.1 = 7 ∧
    (processLoop ctxC2 7).2.2
      ⊆ [Stage.seeding, Stage.merging, Stage.populating, Stage.dupLoadMerging] :=
  c2_bailout_leaves_ir_unchanged ctxC2 7 (by decide)

/-- The position of each stage in the order `processLoop` actually runs them. -/
def stageRank : Stage → Nat
  | Stage.seeding => 0
  | Stage.merging => 1
  | Stage.populating => 2
  | Stage.dupLoadMerging => 3
  | Stage.settingIds => 4
  | Stage.splittingPreheader => 5
  | Stage.versioning => 6
  | Stage.addingPHIs => 7
  | Stage.annotating => 8
  | Stage.cloning => 9
  | Stage.pruning => 10

/-- The position each stage is claimed to occupy by the spec's control-flow
sentence (building → merging → population → cloning → pruning → versioning →
annotation); stages the sentence does not mention are ignored. -/
def claimRank : Stage → Option Nat
  | Stage.seeding => some 0
  | Stage.merging => some 1
  | Stage.populating => some 2
  | Stage.cloning => some 3
  | Stage.pruning => some 4
  | Stage.versioning => some 5
  | Stage.annotating => some 6
  | _ => none

/-- Whether a list of rank positions is nondecreasing. -/
def rankListNondecreasing : List Nat → Bool
  | [] => true
  | [_] => true
  | a :: b :: t => decide (a ≤ b) && rankListNondecreasing (b :: t)

/-- The spec's claimed stage order, as a predicate on a stage trace: the
mentioned stages occur in their claimed positions' order. -/
def claimedStageOrder (t : List Stage) : Prop :=
  rankListNondecreasing (t.filterMap claimRank) = true

/-- A fully-distributable loop that needs runtime checks and has forwarding
candidates: three memory accesses with one backward dependence from the load
`10` to the store `20`, plus an independent access `30`. -/
def ctxC4 : LoopContext Nat :=
  { hasPreheader := true
    hasSingleExitBlock := true
    canVectorizeMemory := false
    interestingDependences := some [Dependence.mk 0 1 true]
    memoryInstructions := [10, 20, 30]
    blocks := [[⟨10, 0, false, []⟩, ⟨20, 0, false, []⟩, ⟨30, 0, false, []⟩, ⟨99, 0, true, []⟩]]
    defsUsedOutside := []
    isLoad := fun i => i == 10
    isStore := fun i => i == 20
    needsPredication := fun _ => false
    distributeNonIfConvertible := false
    addMemcheckForStoreToLoadElimination := true
    needsPreheaderSplit := false
    needsChecks := fun _ => true
    splitBlock := Nat.succ
    runVersionLoop := Nat.succ
    runAddPHINodes := Nat.succ
    runAnnotateNoAlias := Nat.succ
    runCloneLoops := Nat.succ
    runRemoveUnusedInsts := Nat.succ }

/-- C4 counterexample: on a loop that is distributed with runtime checks, the
stage trace violates the claimed order (versioning and annotation run before
cloning and pruning, not after). -/
theorem c4_counterexample : ¬ claimedStageOrder (processLoop ctxC4 0).2.2 := by
  unfold claimedStageOrder
  decide

/-- C4 (amended): the stages run in the order partition building → partition
merging → transitive-closure population → duplicate-load merging (with
bail-outs on fewer than 2 partitions at each of those points, per C2) →
partition-id setup → the conditional preheader split → the conditional
runtime-check versioning, PHI insertion and alias annotation → and only after
those, loop cloning and dead-instruction pruning: every emitted trace is
strictly increasing in `stageRank`. -/
theorem c4_stage_order {σ : Type} (ctx : LoopContext σ) (s : σ) :
    List.Chain' (fun a b => stageRank a < stageRank b) (processLoop ctx s).2.2 := by
  cases h1 : ctx.hasPreheader with
  | false => simp [processLoop, h1]
  | true =>
    cases h2 : ctx.hasSingleExitBlock with
    | false => simp [processLoop, h1, h2]
    | true =>
      cases h3 : ctx.canVectorizeMemory with
      | true => simp [processLoop, h1, h2, h3]
      | false =>
        cases hdeps : ctx.interestingDependences with
        | none => simp [processLoop, h1, h2, h3, hdeps]
        | some deps =>
          by_cases h4 : deps.isEmpty
          · simp [processLoop, h1, h2, h3, hdeps, h4]
          · by_cases h5 :
              (seededPartitions ctx.memoryInstructions deps ctx.defsUsedOutside).length < 2
            · simp [processLoop, h1, h2, h3, hdeps, h4, h5]
            · by_cases h6 : (mergeBeforePopulating ctx.distributeNonIfConvertible ctx.isStore
                  ctx.needsPredication
                  (seededPartitions ctx.memoryInstructions deps ctx.defsUsedOutside)).length < 2
              · simp [processLoop, h1, h2, h3, hdeps, h4, h5, h6]
                decide
              · by_cases h7 : ((mergeToAvoidDuplicatedLoads ctx.isLoad
                      (populatedPartitions ctx deps)).1
                    && decide ((mergeToAvoidDuplicatedLoads ctx.isLoad
                        (populatedPartitions ctx deps)).2.length < 2)) = true
                · simp [processLoop, h1, h2, h3, hdeps, h4, h5, h6, h7]
                  decide
                · by_cases h8 : ctx.needsPreheaderSplit
                  <;> by_cases h9 : ctx.needsChecks
                        (mergeToAvoidDuplicatedLoads ctx.isLoad
                          (populatedPartitions ctx deps)).2 = true
                  <;> by_cases h10 : (storeToLoadForwardingInsts
                        ctx.addMemcheckForStoreToLoadElimination
                        ctx.memoryInstructions deps ctx.isLoad ctx.isStore).isEmpty
                  <;> simp [processLoop, h1, h2, h3, hdeps, h4, h5, h6, h7, h8, h9, h10]
                  <;> decide

/-- C9: the alias annotator runs only when runtime checks are emitted and
store-to-load-forwarding candidates were flagged (first two conjuncts:
`annotating` appears in the stage trace exactly when the loop is distributed,
the runtime-check oracle fires, and the forwarding-candidate set is
nonempty), and within a run it operates only on partitions with a dependence
cycle: every forwarding load of such a partition receives the no-alias scope,
every store of the partition outside the forwarding set receives the matching
alias-scope metadata, and instructions in no cyclic partition are untouched
(third conjunct). -/
theorem c9_alias_annotator_conditions :
    (∀ (σ : Type) (ctx : LoopContext σ) (s : σ) (deps : List Dependence),
      ctx.interestingDependences = some deps →
      (Stage.annotating ∈ (processLoop ctx s).2.2 ↔
        ((processLoop ctx s).1 = true ∧
         ctx.needsChecks
           (mergeToAvoidDuplicatedLoads ctx.isLoad (populatedPartitions ctx deps)).2 = true ∧
         storeToLoadForwardingInsts ctx.addMemcheckForStoreToLoadElimination
           ctx.memoryInstructions deps ctx.isLoad ctx.isStore ≠ []))) ∧
    (∀ (σ : Type) (ctx : LoopContext σ) (s : σ),
      ctx.interestingDependences = none → (processLoop ctx s).2.2 = []) ∧
    (∀ (scope : Nat) (isLoad isStore : Nat → Bool) (fwd : List Nat)
       (parts : List InstPartition) (md : MDState) (i : Nat),
      (∀ P ∈ parts, P.set.Nodup) →
      (parts.filter (fun P => P.depCycle && decide (i ∈ P.set))).length ≤ 1 →
      ((∃ P ∈ parts, P.depCycle = true ∧ i ∈ P.set) →
        (isLoad i = true ∧ i ∈ fwd →
          (annotateNoAlias scope isLoad isStore fwd parts md).noalias i
            = md.noalias i ++ [scope]) ∧
        (isStore i = true ∧ i ∉ fwd →
          (annotateNoAlias scope isLoad isStore fwd parts md).aliasScope i
            = md.aliasScope i ++ [scope])) ∧
      ((∀ P ∈ parts, P.depCycle = true → i ∉ P.set) →
        (annotateNoAlias scope isLoad isStore fwd parts md).noalias i = md.noalias i ∧
        (annotateNoAlias scope isLoad isStore fwd parts md).aliasScope i = md.aliasScope i)) := by
  refine ⟨?_, ?_, ?_⟩
  · intro σ ctx s deps hdeps
    cases h1 : ctx.hasPreheader with
    | false => simp [processLoop, h1]
    | true =>
      cases h2 : ctx.hasSingleExitBlock with
      | false => simp [processLoop, h1, h2]
      | true =>
        cases h3 : ctx.canVectorizeMemory with
        | true => simp [processLoop, h1, h2, h3]
        | false =>
          by_cases h4 : deps.isEmpty
          · simp [processLoop, h1, h2, h3, hdeps, h4]
          · by_cases h5 :
              (seededPartitions ctx.memoryInstructions deps ctx.defsUsedOutside).length < 2
            · simp [processLoop, h1, h2, h3, hdeps, h4, h5]
            · by_cases h6 : (mergeBeforePopulating ctx.distributeNonIfConvertible ctx.isStore
                  ctx.needsPredication
                  (seededPartitions ctx.memoryInstructions deps ctx.defsUsedOutside)).length < 2
              · simp [processLoop, h1, h2, h3, hdeps, h4, h5, h6]
              · by_cases h7 : ((mergeToAvoidDuplicatedLoads ctx.isLoad
                      (populatedPartitions ctx deps)).1
                    && decide ((mergeToAvoidDuplicatedLoads ctx.isLoad
                        (populatedPartitions ctx deps)).2.length < 2)) = true
                · simp [processLoop, h1, h2, h3, hdeps, h4, h5, h6, h7]
                · by_cases h9 : ctx.needsChecks
                      (mergeToAvoidDuplicatedLoads ctx.isLoad
                        (populatedPartitions ctx deps)).2 = true
                  · by_cases h10 : (storeToLoadForwardingInsts
                        ctx.addMemcheckForStoreToLoadElimination
                        ctx.memoryInstructions deps ctx.isLoad ctx.isStore).isEmpty
                    · have h10' : storeToLoadForwardingInsts
                          ctx.addMemcheckForStoreToLoadElimination
                          ctx.memoryInstructions deps ctx.isLoad ctx.isStore = [] :=
                        List.isEmpty_iff.mp h10
                      by_cases h8 : ctx.needsPreheaderSplit <;>
                        simp [processLoop, h1, h2, h3, hdeps, h4, h5, h6, h7, h8, h9, h10, h10']
                    · have h10' : storeToLoadForwardingInsts
                          ctx.addMemcheckForStoreToLoadElimination
                          ctx.memoryInstructions deps ctx.isLoad ctx.isStore ≠ [] := by
                        intro hc
                        rw [hc] at h10
                        exact h10 rfl
                      by_cases h8 : ctx.needsPreheaderSplit <;>
                        simp [processLoop, h1, h2, h3, hdeps, h4, h5, h6, h7, h8, h9, h10, h10']
                  · by_cases h8 : ctx.needsPreheaderSplit <;>
                      simp [processLoop, h1, h2, h3, hdeps, h4, h5, h6, h7, h8, h9]
  · intro σ ctx s hdeps
    cases h1 : ctx.hasPreheader with
    | false => simp [processLoop, h1]
    | true =>
      cases h2 : ctx.hasSingleExitBlock with
      | false => simp [processLoop, h1, h2]
      | true =>
        cases h3 : ctx.canVectorizeMemory with
        | true => simp [processLoop, h1, h2, h3]
        | false => simp [processLoop, h1, h2, h3, hdeps]
  · intro scope isLoad isStore fwd parts md i hnd hcnt
    obtain ⟨hn, ha⟩ := annotateNoAlias_char scope isLoad isStore fwd i parts md hnd hcnt
    constructor
    · intro hex
      constructor
      · rintro ⟨hl, hf⟩
        have hq : stlfQualifies isLoad isStore fwd i = true := by
          unfold stlfQualifies
          have hc : fwd.contains i = true := List.elem_eq_true_of_mem hf
          rw [hl, hc]
          rfl
        rw [hn, if_pos ⟨hex, hq⟩]
      · rintro ⟨hs, hf⟩
        have hcontains : fwd.contains i = false := by
          cases hc : fwd.contains i with
          | false => rfl
          | true => exact absurd (List.mem_of_elem_eq_true hc) hf
        have hq : stlfQualifies isLoad isStore fwd i = true := by
          unfold stlfQualifies
          rw [hs, hcontains]
          simp
        rw [ha, if_pos ⟨hex, hq⟩]
    · intro hnone
      have hcond : ¬ ((∃ P ∈ parts, P.depCycle = true ∧ i ∈ P.set)
          ∧ stlfQualifies isLoad isStore fwd i = true) := by
        rintro ⟨⟨P, hP, hPc, hPi⟩, -⟩
        exact hnone P hP hPc hPi
      exact ⟨by rw [hn, if_neg hcond], by rw [ha, if_neg hcond]⟩

/-- A distributable loop with runtime checks and forwarding candidates, for
instantiating `c9_alias_annotator_conditions`. -/
def ctxC9 : LoopContext Nat :=
  { hasPreheader := true
    hasSingleExitBlock := true
    canVectorizeMemory := false
    interestingDependences := some [Dependence.mk 0 1 true]
    memoryInstructions := [11, 21, 31]
    blocks := [[⟨11, 0, false, []⟩, ⟨21, 0, false, []⟩, ⟨31, 0, false, []⟩, ⟨98, 0, true, []⟩]]
    defsUsedOutside := []
    isLoad := fun i => i == 11
    isStore := fun i => i == 21
    needsPredication := fun _ => false
    distributeNonIfConvertible := false
    addMemcheckForStoreToLoadElimination := true
    needsPreheaderSplit := false
    needsChecks := fun _ => true
    splitBlock := Nat.succ
    runVersionLoop := Nat.succ
    runAddPHINodes := Nat.succ
    runAnnotateNoAlias := Nat.succ
    runCloneLoops := Nat.succ
    runRemoveUnusedInsts := Nat.succ }

/-- Concrete instantiation of `c9_alias_annotator_conditions` (gating part). -/
theorem c9_witness :
    Stage.annotating ∈ (processLoop ctxC9 0).2.2 ↔
      ((processLoop ctxC9 0).1 = true ∧
       ctxC9.needsChecks
         (mergeToAvoidDuplicatedLoads ctxC9.isLoad
           (populatedPartitions ctxC9 [Dependence.mk 0 1 true])).2 = true ∧
       storeToLoadForwardingInsts ctxC9.addMemcheckForStoreToLoadElimination
         ctxC9.memoryInstructions [Dependence.mk 0 1 true] ctxC9.isLoad ctxC9.isStore ≠ []) :=
  c9_alias_annotator_conditions.1 Nat ctxC9 0 [Dependence.mk 0 1 true] rfl

/-! ## Loop cloning and dominator-tree maintenance (`cloneLoops`)

Basic blocks are `Blk`: original blocks of the function carry a `Nat` id;
the block cloned for partition `k` from original block `b` is `Blk.clone k b`
(the `VMap` of partition `k` sends `Blk.orig b` to `Blk.clone k b`).  The
dominator tree is a partial map from a block to its immediate dominator,
updated exactly where the code calls `DT->addNewBlock` /
`DT->changeImmediateDominator`. -/

/-- A basic block: an original block or partition `k`'s clone of block `b`. -/
inductive Blk where
  | orig : Nat → Blk
  | clone : Nat → Nat → Blk
deriving DecidableEq, Repr

/-- Update the immediate dominator of one block. -/
def updDT (dt : Blk → Option Blk) (k : Blk) (v : Blk) : Blk → Option Blk :=
  fun b => if b = k then some v else dt b

/-- The loop geometry consumed by `cloneLoops`: the (empty) preheader, its
single predecessor `pred` (the memcheck block or the top of the split
preheader), the loop's blocks, and the exiting block. -/
structure CloneCtx where
  ph : Nat
  pred : Blk
  loopBlocks : List Nat
  exiting : Nat
deriving Repr

/-- Partition `k`'s `VMap` on blocks: original loop blocks (and the
preheader) map to their `k`-clones. -/
def vmapB (k : Nat) : Blk → Blk
  | Blk.orig b => Blk.clone k b
  | b => b

/-- `cloneLoopWithPreheader` for partition `k`: the new preheader is added
under `LoopDomBB` (= `pred`), and each cloned block is added under the image
under `VMap` of its original's immediate dominator, read from the current
tree. -/
def cloneOne (cfg : CloneCtx) (k : Nat) (dt : Blk → Option Blk) : Blk → Option Blk :=
  cfg.loopBlocks.foldl
    (fun d b =>
      updDT d (Blk.clone k b) (vmapB k ((d (Blk.orig b)).getD (Blk.orig 0))))
    (updDT dt (Blk.clone k cfg.ph) cfg.pred)

/-- The preheader of partition `k`'s distributed loop (`n` partitions in
total; the last partition keeps the original loop). -/
def pheadOf (cfg : CloneCtx) (n k : Nat) : Blk :=
  if k = n - 1 then Blk.orig cfg.ph else Blk.clone k cfg.ph

/-- The exiting block of partition `k`'s distributed loop. -/
def exitingOf (cfg : CloneCtx) (n k : Nat) : Blk :=
  if k = n - 1 then Blk.orig cfg.exiting else Blk.clone k cfg.exiting

/-- `InstPartitionContainer::cloneLoops`: clone a loop for each partition but
the last, in reverse order, then walk forward and set each later partition's
preheader's immediate dominator to the previous partition's exiting block. -/
def cloneLoops (cfg : CloneCtx) (n : Nat) (dt0 : Blk → Option Blk) : Blk → Option Blk :=
  ((List.range' 1 (n - 1)).foldl
    (fun d k => updDT d (pheadOf cfg n k) (exitingOf cfg n (k - 1)))
    ((List.range (n - 1)).reverse.foldl (fun d k => cloneOne cfg k d) dt0))

lemma updDT_same (dt : Blk → Option Blk) (k v : Blk) : updDT dt k v k = some v := by
  simp [updDT]

lemma updDT_other (dt : Blk → Option Blk) (k v b : Blk) (h : b ≠ k) :
    updDT dt k v b = dt b := by
  simp [updDT, h]

lemma cloneFold_ne (cfg : CloneCtx) (k : Nat) :
    ∀ (l : List Nat) (d : Blk → Option Blk) (t : Blk),
      (∀ b, t ≠ Blk.clone k b) →
      (l.foldl
        (fun d b =>
          updDT d (Blk.clone k b) (vmapB k ((d (Blk.orig b)).getD (Blk.orig 0)))) d) t
        = d t := by
  intro l
  induction l with
  | nil => intro d t _; rfl
  | cons a l ih =>
      intro d t ht
      simp only [List.foldl_cons]
      rw [ih _ t ht, updDT_other _ _ _ _ (ht a)]

lemma cloneOne_ne (cfg : CloneCtx) (k : Nat) (dt : Blk → Option Blk) (t : Blk)
    (ht : ∀ b, t ≠ Blk.clone k b) :
    cloneOne cfg k dt t = dt t := by
  unfold cloneOne
  rw [cloneFold_ne cfg k _ _ t ht, updDT_other _ _ _ _ (ht cfg.ph)]

lemma cloneFold_preserve (cfg : CloneCtx) (k : Nat) :
    ∀ (l : List Nat) (d : Blk → Option Blk) (a : Nat),
      a ∉ l →
      (l.foldl
        (fun d b =>
          updDT d (Blk.clone k b) (vmapB k ((d (Blk.orig b)).getD (Blk.orig 0)))) d)
        (Blk.clone k a)
        = d (Blk.clone k a) := by
  intro l
  induction l with
  | nil => intro d a _; rfl
  | cons b l ih =>
      intro d a ha
      simp only [List.foldl_cons]
      have hne : a ≠ b := fun h => ha (h ▸ List.mem_cons_self b l)
      rw [ih _ a (fun h => ha (List.mem_cons_of_mem b h)),
        updDT_other]
      intro h
      exact hne (by injection h)

lemma cloneFold_char (cfg : CloneCtx) (k : Nat) (dt0 : Blk → Option Blk) :
    ∀ (l : List Nat) (d : Blk → Option Blk),
      l.Nodup →
      (∀ x, d (Blk.orig x) = dt0 (Blk.orig x)) →
      ∀ b ∈ l, ∀ ib, dt0 (Blk.orig b) = some (Blk.orig ib) →
        (l.foldl
          (fun d b =>
            updDT d (Blk.clone k b) (vmapB k ((d (Blk.orig b)).getD (Blk.orig 0)))) d)
          (Blk.clone k b)
          = some (Blk.clone k ib) := by
  intro l
  induction l with
  | nil => intro d _ _ b hb; exact absurd hb (List.not_mem_nil b)
  | cons a l ih =>
      intro d hnd hagree b hb ib hib
      have hnd' := List.nodup_cons.mp hnd
      simp only [List.foldl_cons]
      rcases List.mem_cons.mp hb with hba | hbl
      · subst hba
        rw [cloneFold_preserve cfg k l _ b hnd'.1, updDT_same]
        rw [hagree b, hib]
        rfl
      · apply ih _ hnd'.2 _ b hbl ib hib
        intro x
        rw [updDT_other _ _ _ _ (fun h => Blk.noConfusion h), hagree x]

lemma cloneOne_clone_block (cfg : CloneCtx) (k : Nat) (dt : Blk → Option Blk)
    (hnd : cfg.loopBlocks.Nodup) (hph : cfg.ph ∉ cfg.loopBlocks)
    (b : Nat) (hb : b ∈ cfg.loopBlocks) (ib : Nat)
    (hib : dt (Blk.orig b) = some (Blk.orig ib)) :
    cloneOne cfg k dt (Blk.clone k b) = some (Blk.clone k ib) := by
  unfold cloneOne
  apply cloneFold_char cfg k dt cfg.loopBlocks _ hnd _ b hb ib hib
  intro x
  exact updDT_other _ _ _ _ (fun h => Blk.noConfusion h)

lemma revFold_preserve (cfg : CloneCtx) :
    ∀ (L : List Nat) (d : Blk → Option Blk) (t : Blk),
      (∀ k ∈ L, ∀ b, t ≠ Blk.clone k b) →
      (L.foldl (fun d k => cloneOne cfg k d) d) t = d t := by
  intro L
  induction L with
  | nil => intro d t _; rfl
  | cons a L ih =>
      intro d t ht
      simp only [List.foldl_cons]
      rw [ih _ t (fun k hk => ht k (List.mem_cons_of_mem a hk)),
        cloneOne_ne cfg a d t (ht a (List.mem_cons_self a L))]

lemma revFold_char (cfg : CloneCtx) (dt0 : Blk → Option Blk)
    (hnd : cfg.loopBlocks.Nodup) (hph : cfg.ph ∉ cfg.loopBlocks) :
    ∀ (L : List Nat) (d : Blk → Option Blk),
      L.Nodup →
      (∀ x, d (Blk.orig x) = dt0 (Blk.orig x)) →
      ∀ k ∈ L, ∀ b ∈ cfg.loopBlocks, ∀ ib, dt0 (Blk.orig b) = some (Blk.orig ib) →
        (L.foldl (fun d k => cloneOne cfg k d) d) (Blk.clone k b)
          = some (Blk.clone k ib) := by
  intro L
  induction L with
  | nil => intro d _ _ k hk; exact absurd hk (List.not_mem_nil k)
  | cons a L ih =>
      intro d hndL hagree k hk b hb ib hib
      have hndL' := List.nodup_cons.mp hndL
      simp only [List.foldl_cons]
      rcases List.mem_cons.mp hk with hka | hkL
      · subst hka
        rw [revFold_preserve cfg L _ (Blk.clone k b)
          (fun j hj b' h => hndL'.1 (by injection h with h1 _; exact h1 ▸ hj))]
        exact cloneOne_clone_block cfg k d hnd hph b hb ib ((hagree b).trans hib)
      · apply ih _ hndL'.2 _ k hkL b hb ib hib
        intro x
        rw [cloneOne_ne cfg a d (Blk.orig x) (fun b' h => Blk.noConfusion h),
          hagree x]

lemma fwdFold_preserve (cfg : CloneCtx) (n : Nat) :
    ∀ (L : List Nat) (d : Blk → Option Blk) (t : Blk),
      (∀ j ∈ L, t ≠ pheadOf cfg n j) →
      (L.foldl (fun d j => updDT d (pheadOf cfg n j) (exitingOf cfg n (j - 1))) d) t
        = d t := by
  intro L
  induction L with
  | nil => intro d t _; rfl
  | cons a L ih =>
      intro d t ht
      simp only [List.foldl_cons]
      rw [ih _ t (fun j hj => ht j (List.mem_cons_of_mem a hj)),
        updDT_other _ _ _ _ (ht a (List.mem_cons_self a L))]

lemma pheadOf_inj (cfg : CloneCtx) (n : Nat) (j k : Nat)
    (h : pheadOf cfg n j = pheadOf cfg n k) : j = k := by
  unfold pheadOf at h
  by_cases hj : j = n - 1 <;> by_cases hk : k = n - 1 <;>
    simp [hj, hk] at h
  · exact hj.trans hk.symm
  · exact h

lemma fwdFold_char (cfg : CloneCtx) (n : Nat) :
    ∀ (L : List Nat) (d : Blk → Option Blk) (k : Nat),
      L.Nodup → k ∈ L →
      (L.foldl (fun d j => updDT d (pheadOf cfg n j) (exitingOf cfg n (j - 1))) d)
        (pheadOf cfg n k)
        = some (exitingOf cfg n (k - 1)) := by
  intro L
  induction L with
  | nil => intro d k _ hk; exact absurd hk (List.not_mem_nil k)
  | cons a L ih =>
      intro d k hnd hk
      have hnd' := List.nodup_cons.mp hnd
      simp only [List.foldl_cons]
      rcases List.mem_cons.mp hk with hka | hkL
      · subst hka
        rw [fwdFold_preserve cfg n L _ (pheadOf cfg n k)
          (fun j hj h => hnd'.1 ((pheadOf_inj cfg n k j h) ▸ hj)),
          updDT_same]
      · exact ih _ k hnd'.2 hkL

/-- A two-partition instance for `c7_dominator_consistency`: preheader `0`
preceded by block `100`, loop blocks `[1, 2]`, exiting block `2`. -/
def cfgC7 : CloneCtx := ⟨0, Blk.orig 100, [1, 2], 2⟩

/-- The dominator tree before cloning in `cfgC7`: the preheader dominates
block `1`, which dominates block `2`. -/
def dt0C7 : Blk → Option Blk := fun b =>
  if b = Blk.orig 1 then some (Blk.orig 0)
  else if b = Blk.orig 2 then some (Blk.orig 1) else none

/-- C7: after `cloneLoops`, every cloned loop block's immediate dominator is
partition `k`'s clone of the original block's immediate dominator, and the
preheader of every distributed loop after the first is immediately dominated
by the previous distributed loop's exiting block. -/
theorem c7_dominator_consistency
    (cfg : CloneCtx) (n : Nat) (dt0 : Blk → Option Blk) (origIdom : Nat → Nat)
    (hph : cfg.ph ∉ cfg.loopBlocks)
    (hnd : cfg.loopBlocks.Nodup)
    (hidom : ∀ b ∈ cfg.loopBlocks, dt0 (Blk.orig b) = some (Blk.orig (origIdom b))) :
    (∀ k, k < n - 1 → ∀ b ∈ cfg.loopBlocks,
        cloneLoops cfg n dt0 (Blk.clone k b) = some (Blk.clone k (origIdom b))) ∧
    (∀ k, 1 ≤ k → k < n →
        cloneLoops cfg n dt0 (pheadOf cfg n k) = some (exitingOf cfg n (k - 1))) := by
  constructor
  · intro k hk b hb
    unfold cloneLoops
    rw [fwdFold_preserve]
    · apply revFold_char cfg dt0 hnd hph _ dt0 _ (fun x => rfl) k _ b hb
        (origIdom b) (hidom b hb)
      · simp [List.nodup_reverse, List.nodup_range]
      · simp [hk]
    · intro j hj h
      unfold pheadOf at h
      by_cases hje : j = n - 1
      · rw [if_pos hje] at h
        exact Blk.noConfusion h
      · rw [if_neg hje] at h
        injection h with h1 h2
        exact hph (h2 ▸ hb)
  · intro k hk1 hkn
    unfold cloneLoops
    apply fwdFold_char
    · simp [List.nodup_range']
    · rw [List.mem_range'_1]
      omega

/-- Concrete instantiation of `c7_dominator_consistency` on `cfgC7`. -/
theorem c7_witness :
    cloneLoops cfgC7 2 dt0C7 (Blk.clone 0 1) = some (Blk.clone 0 0) ∧
    cloneLoops cfgC7 2 dt0C7 (pheadOf cfgC7 2 1) = some (exitingOf cfgC7 2 0) :=
  ⟨(c7_dominator_consistency cfgC7 2 dt0C7 (fun b => b - 1) (by decide) (by decide)
      (by decide)).1 0 (by decide) 1 (by decide),
   (c7_dominator_consistency cfgC7 2 dt0C7 (fun b => b - 1) (by decide) (by decide)
      (by decide)).2 1 (by decide) (by decide)⟩
